import Mathlib

/-!
# A write-ahead-logged key-value store (cloud-native-go, chapter 5)

Shallow embedding of `ch05/ch05_01/core.go`, `ch05/ch05_03/core.go`,
`ch05/ch05_03/transact.go` and `initializeTransactionLog` of
`ch05/ch05_03/server.go`, together with models of the Go library routines
these files call (`fmt.Fprintf`, `fmt.Sscanf`, `bufio.Scanner`,
`net/url.QueryUnescape`), and of `Retry` of `ch04/retry.go`.

A Go `string` is a sequence of bytes; it is modelled as a list of naturals,
each byte being a number below 256.
-/

/-- A Go string: its bytes in order. -/
abbrev GoString := List Nat

/-- UTF-8 encoding of one code point, as `utf8.AppendRune` produces it
(surrogates and values above U+10FFFF become U+FFFD). -/
def encodeRune (r : Nat) : List Nat :=
  if r < 0x80 then [r]
  else if r < 0x800 then [0xC0 + r / 64, 0x80 + r % 64]
  else if (0xD800 ≤ r ∧ r ≤ 0xDFFF) ∨ 0x10FFFF < r then [0xEF, 0xBF, 0xBD]
  else if r < 0x10000 then [0xE0 + r / 4096, 0x80 + r / 64 % 64, 0x80 + r % 64]
  else [0xF0 + r / 262144, 0x80 + r / 4096 % 64, 0x80 + r / 64 % 64, 0x80 + r % 64]

/-- The bytes of a Lean string literal (its UTF-8 encoding). -/
def bytes (s : String) : GoString :=
  (s.toList.map (fun c => encodeRune c.toNat)).flatten

/-- The Go values of type `error` that occur in the embedded code. -/
inductive GoError where
  /-- `ErrorNoSuchKey`, "no such key" -/
  | noSuchKey
  /-- "transaction numbers out of sequence" -/
  | outOfSequence
  /-- "value decoding failure: %w", wrapping the `url.EscapeError` text -/
  | decodeFailure (esc : GoString)
  /-- "transaction log read failure: %w", wrapping `bufio.ErrTooLong` -/
  | readFailure
  /-- "failed to create event logger: %w" -/
  | createFailure
  /-- an error returned by a write on the log file -/
  | writeFailure (code : Nat)
  deriving DecidableEq, Repr

deriving instance DecidableEq for Except

/-! ## `ch05/ch05_01/core.go` -/

namespace Ch05_01

/-- The package variable `store`, a `map[string]string`: a partial function
from keys to values. -/
abbrev Store := GoString → Option GoString

/-- The value of `store` at program start, `make(map[string]string)`. -/
def emptyStore : Store := fun _ => none

/-- `Delete(key)`: `delete(store, key)`, then `return nil`. -/
def Delete (key : GoString) (store : Store) : Store × Option GoError :=
  (fun k => if k = key then none else store k, none)

/-- `Get(key)`: `value, ok := store[key]`; `("", ErrorNoSuchKey)` when not ok. -/
def Get (key : GoString) (store : Store) : GoString × Option GoError :=
  match store key with
  | none => ([], some GoError.noSuchKey)
  | some value => (value, none)

/-- `Put(key, value)`: `store[key] = value`, then `return nil`. -/
def Put (key value : GoString) (store : Store) : Store × Option GoError :=
  (fun k => if k = key then some value else store k, none)

end Ch05_01

/-! ## `ch05/ch05_03/core.go`

The same three functions around a map guarded by a `sync.RWMutex`; each call
holds the lock for its single map access, so a call is one atomic step on the
map. -/

namespace Ch05_03

/-- The field `store.m`, a `map[string]string`. -/
abbrev Store := GoString → Option GoString

/-- The initial `store.m`, `make(map[string]string)`. -/
def emptyStore : Store := fun _ => none

/-- `Delete(key)`: `delete(store.m, key)` under the write lock; returns nil. -/
def Delete (key : GoString) (store : Store) : Store × Option GoError :=
  (fun k => if k = key then none else store k, none)

/-- `Get(key)`: `value, ok := store.m[key]` under the read lock;
`("", ErrorNoSuchKey)` when not ok, `(value, nil)` otherwise. -/
def Get (key : GoString) (store : Store) : GoString × Option GoError :=
  match store key with
  | none => ([], some GoError.noSuchKey)
  | some value => (value, none)

/-- `Put(key, value)`: `store.m[key] = value` under the write lock; returns nil. -/
def Put (key value : GoString) (store : Store) : Store × Option GoError :=
  (fun k => if k = key then some value else store k, none)

/-! ## Library model: formatting (`fmt.Fprintf` with `%d` and `%s`) -/

/-- Decimal digits of `n`, most significant first; `fuel` bounds the number
of digits. -/
def decDigits : Nat → Nat → List Nat
  | 0, _ => []
  | fuel + 1, n =>
    if n < 10 then [48 + n] else decDigits fuel (n / 10) ++ [48 + n % 10]

/-- What `%d` prints for an unsigned integer. -/
def fmtUint (n : Nat) : GoString := decDigits (n + 1) n

/-- The bytes `fmt.Fprintf(w, "%d\t%d\t%s\t%s\n", seq, typ, key, value)` hands
to the writer. -/
def fmtRecord (seq typ : Nat) (key value : GoString) : GoString :=
  fmtUint seq ++ [9] ++ fmtUint typ ++ [9] ++ key ++ [9] ++ value ++ [10]

/-! ## Library model: `bufio.Scanner` with the default `ScanLines` -/

/-- Splits the input at every newline byte; a final piece without newline is
kept when it is not empty (`ScanLines` before `dropCR`). -/
def rawLines : List Nat → List (List Nat)
  | [] => []
  | b :: bs =>
    if b = 10 then [] :: rawLines bs
    else
      match rawLines bs with
      | [] => [[b]]
      | l :: ls => (b :: l) :: ls

/-- `dropCR`: removes one trailing carriage return. -/
def dropCR (data : List Nat) : List Nat :=
  if data.getLast? = some 13 then data.dropLast else data

/-- `bufio.MaxScanTokenSize - 1`: the scanner's buffer holds 64 KiB, so a line
is delivered only when it has at most this many bytes before its newline. -/
def maxLine : Nat := 65535

/-- The tokens successive `scanner.Scan()` calls deliver, and whether scanning
stopped with `bufio.ErrTooLong`. -/
def scanTokens : List (List Nat) → List GoString × Bool
  | [] => ([], false)
  | l :: ls =>
    if maxLine < l.length then ([], true)
    else ((dropCR l) :: (scanTokens ls).1, (scanTokens ls).2)

/-- A `bufio.Scanner` run over a file with these contents. -/
def scanLines (file : GoString) : List GoString × Bool :=
  scanTokens (rawLines file)

/-! ## Library model: `fmt.Sscanf` -/

/-- `utf8.DecodeRune` on the front of the input: the code point and the
remaining bytes; an invalid or truncated encoding yields U+FFFD and consumes
one byte. `none` at end of input. -/
def decodeRune : List Nat → Option (Nat × List Nat)
  | [] => none
  | b0 :: rest =>
    if b0 < 0x80 then some (b0, rest)
    else if 0xC2 ≤ b0 ∧ b0 ≤ 0xDF then
      match rest with
      | b1 :: r1 =>
        if 0x80 ≤ b1 ∧ b1 ≤ 0xBF then some (b0 % 32 * 64 + b1 % 64, r1)
        else some (0xFFFD, rest)
      | _ => some (0xFFFD, rest)
    else if 0xE0 ≤ b0 ∧ b0 ≤ 0xEF then
      match rest with
      | b1 :: b2 :: r2 =>
        if (if b0 = 0xE0 then 0xA0 else 0x80) ≤ b1 ∧
            b1 ≤ (if b0 = 0xED then 0x9F else 0xBF) ∧ 0x80 ≤ b2 ∧ b2 ≤ 0xBF then
          some (b0 % 16 * 4096 + b1 % 64 * 64 + b2 % 64, r2)
        else some (0xFFFD, rest)
      | _ => some (0xFFFD, rest)
    else if 0xF0 ≤ b0 ∧ b0 ≤ 0xF4 then
      match rest with
      | b1 :: b2 :: b3 :: r3 =>
        if (if b0 = 0xF0 then 0x90 else 0x80) ≤ b1 ∧
            b1 ≤ (if b0 = 0xF4 then 0x8F else 0xBF) ∧ 0x80 ≤ b2 ∧ b2 ≤ 0xBF ∧
            0x80 ≤ b3 ∧ b3 ≤ 0xBF then
          some (b0 % 8 * 262144 + b1 % 64 * 4096 + b2 % 64 * 64 + b3 % 64, r3)
        else some (0xFFFD, rest)
      | _ => some (0xFFFD, rest)
    else some (0xFFFD, rest)

/-- The runes `ss.getRune` returns one after another on this input. -/
def decodeAllAux : Nat → List Nat → List Nat
  | 0, _ => []
  | fuel + 1, s =>
    match decodeRune s with
    | none => []
    | some (r, rest) => r :: decodeAllAux fuel rest

/-- The runes of a string, as the scanner reads them. -/
def decodeAll (s : GoString) : List Nat := decodeAllAux s.length s

/-- `isSpace` of `fmt/scan.go` (its table of white space code points). -/
def isSpace (r : Nat) : Bool :=
  (0x09 ≤ r && r ≤ 0x0D) || r == 0x20 || r == 0x85 || r == 0xA0 || r == 0x1680 ||
  (0x2000 ≤ r && r ≤ 0x200A) || r == 0x2028 || r == 0x2029 || r == 0x202F ||
  r == 0x205F || r == 0x3000

/-- `ss.SkipSpace` with `nlIsSpace` false, on the runes still to be read:
the input left, or `none` when it raises "unexpected newline". -/
def SkipSpace : List Nat → Option (List Nat)
  | [] => some []
  | r :: rs =>
    if r = 13 ∧ rs.head? = some 10 then SkipSpace rs
    else if r = 10 then none
    else if isSpace r then SkipSpace rs
    else some (r :: rs)

/-- The loop `for s.accept(digits) {}` of `scanNumber` with the digits
`getBase` gives for verb `%d`, "0123456789": the runes accepted and the input
left. -/
def acceptDigits : List Nat → List Nat × List Nat
  | [] => ([], [])
  | r :: rs =>
    if 48 ≤ r ∧ r ≤ 57 then ((r :: (acceptDigits rs).1), (acceptDigits rs).2)
    else ([], r :: rs)

/-- The value `strconv.ParseUint(tok, 10, 64)` accumulates over the digits
read so far, `none` once a byte is not a decimal digit (a syntax error). -/
def parseDigits : Nat → List Nat → Option Nat
  | acc, [] => some acc
  | acc, c :: cs =>
    if 48 ≤ c ∧ c ≤ 57 then parseDigits (acc * 10 + (c - 48)) cs else none

/-- `strconv.ParseUint(tok, 10, 64)`: `none` on a syntax error (empty token,
a byte that is no digit) or when the value does not fit 64 bits. -/
def ParseUint (tok : List Nat) : Option Nat :=
  if tok = [] then none
  else
    match parseDigits 0 tok with
    | none => none
    | some i => if i < 2 ^ 64 then some i else none

/-- `ss.scanUint('d', bitSize)`: skips space, requires input, reads the digit
run, parses it and checks it fits `bitSize` bits. `none` stands for the panic
that ends the scan. -/
def scanUint (bitSize : Nat) (inp : List Nat) : Option (Nat × List Nat) :=
  match SkipSpace inp with
  | none => none
  | some [] => none
  | some (r :: rs) =>
    let tok := (acceptDigits (r :: rs)).1
    if tok = [] then none
    else
      match ParseUint tok with
      | none => none
      | some i => if i < 2 ^ bitSize then some (i, (acceptDigits (r :: rs)).2) else none

/-- The loop of `advance` that skips spaces other than newline. -/
def skipBlanks : List Nat → List Nat
  | [] => []
  | r :: rs => if isSpace r ∧ r ≠ 10 then skipBlanks rs else r :: rs

/-- `ss.advance` on a format piece that is a single tab: the next rune must be
a space other than newline, or the end of input; the run of such spaces is
consumed. -/
def advanceTab : List Nat → Option (List Nat)
  | [] => some []
  | r :: rs => if !isSpace r || r == 10 then none else some (skipBlanks (r :: rs))

/-- The loop of `ss.token(true, notSpace)` after its `SkipSpace`: the runes up
to the next space, re-encoded into the token buffer, and the input left. -/
def tokenRunes : List Nat → GoString × List Nat
  | [] => ([], [])
  | r :: rs =>
    if isSpace r then ([], r :: rs)
    else (encodeRune r ++ (tokenRunes rs).1, (tokenRunes rs).2)

/-- `ss.convertString('s')`: `SkipSpace`, `notEOF`, then the next word. -/
def convertString (inp : List Nat) : Option (GoString × List Nat) :=
  match SkipSpace inp with
  | none => none
  | some [] => none
  | some (r :: rs) =>
    match SkipSpace (r :: rs) with
    | none => none
    | some inp1 => some (tokenRunes inp1)

/-- What `doScanf` does for a verb other than `%c`: `SkipSpace`, then the
scan of the operand. -/
def verbUint (bitSize : Nat) (inp : List Nat) : Option (Nat × List Nat) :=
  match SkipSpace inp with
  | none => none
  | some inp1 => scanUint bitSize inp1

/-- `doScanf` for verb `%s`: `SkipSpace`, then `convertString`. -/
def verbString (inp : List Nat) : Option (GoString × List Nat) :=
  match SkipSpace inp with
  | none => none
  | some inp1 => convertString inp1

/-! ## Library model: `net/url` -/

/-- `ishex` of `net/url`. -/
def ishex (c : Nat) : Bool :=
  (48 ≤ c && c ≤ 57) || (97 ≤ c && c ≤ 102) || (65 ≤ c && c ≤ 70)

/-- `unhex` of `net/url`. -/
def unhex (c : Nat) : Nat :=
  if 48 ≤ c ∧ c ≤ 57 then c - 48
  else if 97 ≤ c ∧ c ≤ 102 then c - 97 + 10
  else if 65 ≤ c ∧ c ≤ 70 then c - 65 + 10
  else 0

/-- `url.QueryUnescape`: `%XX` becomes the byte XX, `+` becomes a space; a
`%` not followed by two hex digits is an `EscapeError` carrying at most three
bytes from the `%` on. -/
def QueryUnescape : GoString → Except GoString GoString
  | [] => .ok []
  | c :: rest =>
    if c = 37 then
      match rest with
      | h1 :: h2 :: rest2 =>
        if ishex h1 && ishex h2 then
          match QueryUnescape rest2 with
          | .ok t => .ok ((unhex h1 * 16 + unhex h2) :: t)
          | .error e => .error e
        else .error [c, h1, h2]
      | _ => .error (c :: rest)
    else
      match QueryUnescape rest with
      | .ok t => .ok ((if c = 43 then 32 else c) :: t)
      | .error e => .error e

/-- The upper-case hex digit of `n` (`upperhex[n]`). -/
def upperhex (n : Nat) : Nat := if n < 10 then 48 + n else 55 + n

/-- `shouldEscape(c, encodeQueryComponent)`: everything but letters, digits
and `-`, `_`, `.`, `~`. -/
def shouldEscape (c : Nat) : Bool :=
  !((97 ≤ c && c ≤ 122) || (65 ≤ c && c ≤ 90) || (48 ≤ c && c ≤ 57) ||
    c == 45 || c == 95 || c == 46 || c == 126)

/-- `url.QueryEscape`: a space becomes `+`, every other byte that should be
escaped becomes `%XX`. -/
def QueryEscape : GoString → GoString
  | [] => []
  | c :: rest =>
    if shouldEscape c then
      if c = 32 then 43 :: QueryEscape rest
      else 37 :: upperhex (c / 16) :: upperhex (c % 16) :: QueryEscape rest
    else c :: QueryEscape rest

/-! ## `ch05/ch05_03/transact.go` -/

/-- `EventDelete EventType = iota`, with iota == 1. -/
def EventDelete : Nat := 1

/-- `EventPut`, with iota == 2. -/
def EventPut : Nat := 2

/-- `type Event struct`; `EventType` is a `byte`, `Sequence` a `uint64`. -/
structure Event where
  Sequence : Nat
  EventType : Nat
  Key : GoString
  Value : GoString
  deriving DecidableEq, Repr

/-- The zero value `Event{}` (`var e Event`). -/
def Event.zero : Event := ⟨0, 0, [], []⟩

/-- `fmt.Sscanf(line, "%d\t%d\t%s\t%s", &e.Sequence, &e.EventType, &e.Key,
&e.Value)` with the result discarded: the operands are stored one after the
other, and the first failure ends the scan, leaving the remaining fields of
`e` as they were. -/
def Sscanf (line : GoString) (e : Event) : Event :=
  match verbUint 64 (decodeAll line) with
  | none => e
  | some (seq, inp1) =>
    let e1 := { e with Sequence := seq }
    match advanceTab inp1 with
    | none => e1
    | some inp2 =>
      match verbUint 8 inp2 with
      | none => e1
      | some (typ, inp3) =>
        let e2 := { e1 with EventType := typ }
        match advanceTab inp3 with
        | none => e2
        | some inp4 =>
          match verbString inp4 with
          | none => e2
          | some (key, inp5) =>
            let e3 := { e2 with Key := key }
            match advanceTab inp5 with
            | none => e3
            | some inp6 =>
              match verbString inp6 with
              | none => e3
              | some (value, _) => { e3 with Value := value }

/-- A Go channel: the values buffered in it and whether it was closed. -/
structure Chan (α : Type) where
  buf : List α
  closed : Bool
  deriving DecidableEq, Repr

/-- `type FileTransactionLogger struct`. `events` and `errors` are nil (`none`)
until `Run`; `file` is the content of the log file, `fileClosed` whether
`l.file.Close()` was called; `wg` is the counter of the `sync.WaitGroup`. -/
structure FileTransactionLogger where
  events : Option (Chan Event)
  errors : Option (Chan GoError)
  lastSequence : Nat
  file : GoString
  fileClosed : Bool
  wg : Nat
  deriving DecidableEq, Repr

/-- `NewFileTransactionLogger(filename)`: `contents` is what `os.OpenFile`
with `O_RDWR|O_APPEND|O_CREATE` finds in the file (empty when it creates it),
`none` when the open fails. -/
def NewFileTransactionLogger (contents : Option GoString) :
    Except GoError FileTransactionLogger :=
  match contents with
  | none => .error GoError.createFailure
  | some data => .ok ⟨none, none, 0, data, false, 0⟩

/-- What the goroutine of `ReadEvents` does before it returns: the events it
sends on `outEvent`, in order, the error it sends on `outError` (if any), and
`l.lastSequence` at its end. -/
structure Replay where
  events : List Event
  error : Option GoError
  lastSequence : Nat
  deriving DecidableEq, Repr

/-- The loop `for scanner.Scan() { ... }` of `ReadEvents` over the lines the
scanner delivers, followed by the check of `scanner.Err()`; `tooLong` tells
whether the scanner stops with an error after these lines. `last` is
`l.lastSequence`, `e` the variable declared before the loop. -/
def readLoop (tooLong : Bool) : List GoString → Nat → Event → Replay
  | [], last, _ => ⟨[], if tooLong then some GoError.readFailure else none, last⟩
  | line :: rest, last, e =>
    let e1 := Sscanf line e
    if last ≥ e1.Sequence then ⟨[], some GoError.outOfSequence, last⟩
    else
      match QueryUnescape e1.Value with
      | .error esc => ⟨[], some (GoError.decodeFailure esc), last⟩
      | .ok uv =>
        let e2 := { e1 with Value := uv }
        let r := readLoop tooLong rest e2.Sequence e2
        ⟨e2 :: r.events, r.error, r.lastSequence⟩

/-- `l.ReadEvents()`, run to the end of its goroutine. -/
def ReadEvents (l : FileTransactionLogger) : Replay :=
  readLoop (scanLines l.file).2 (scanLines l.file).1 l.lastSequence Event.zero

/-! ### The write pipeline: callers of `WritePut` / `WriteDelete`, the
goroutine started by `Run`, and a caller of `Close`, as a transition system -/

/-- Where the goroutine started by `Run` stands. -/
inductive Consumer where
  /-- at `for e := range events`, waiting for the next event -/
  | receiving
  /-- it has received `e`; `l.lastSequence++` comes next -/
  | received (e : Event)
  /-- it has incremented `l.lastSequence`; `fmt.Fprintf` comes next -/
  | incremented (e : Event)
  /-- `fmt.Fprintf` has returned without error; `l.wg.Done()` comes next -/
  | written
  /-- it has sent the write error on `errors` and returned -/
  | stopped
  /-- the `range` loop has ended: the channel is closed and drained -/
  | finished
  deriving DecidableEq, Repr

/-- The state of a logger after `Run`. `sending` holds the events of the
calls of `WritePut` / `WriteDelete` that have executed `l.wg.Add(1)` and
stand at `l.events <- e`; `closer` counts the statements of `Close` executed
so far by the latest call (0: no call past `l.Wait()` yet, 1: `Wait` has
returned, 2: `close(l.events)` done, 3: `l.file.Close()` done). The last three fields are history variables
that no step reads: the number of `wg.Add(1)` calls, the events put on the
channel in order, and the number of writes that succeeded. -/
structure Pipeline where
  l : FileTransactionLogger
  consumer : Consumer
  sending : List Event
  closer : Nat
  submitted : Nat
  enqueued : List Event
  appended : Nat
  deriving DecidableEq, Repr

/-- How a statement ends: normally, not at all in this state (the goroutine
waits), or with a run-time panic (in the state reached at the panic). -/
inductive Outcome (σ : Type) where
  | ok (s : σ)
  | blocked
  | panic (s : σ)
  deriving DecidableEq, Repr

/-- Sequencing of statements. -/
def Outcome.bind {σ τ : Type} (o : Outcome σ) (f : σ → Outcome τ) (g : σ → τ) : Outcome τ :=
  match o with
  | .ok s => f s
  | .blocked => .blocked
  | .panic s => .panic (g s)

/-- `l.Run()`: makes the two channels (`events` with capacity 16, `errors`
with capacity 1) and starts the consumer goroutine. -/
def Run (l : FileTransactionLogger) : Pipeline :=
  { l := { l with events := some ⟨[], false⟩, errors := some ⟨[], false⟩ }
    consumer := Consumer.receiving
    sending := []
    closer := 0
    submitted := 0
    enqueued := []
    appended := 0 }

/-- The event `WritePut(key, value)` sends. -/
def putEvent (key value : GoString) : Event := ⟨0, EventPut, key, value⟩

/-- The event `WriteDelete(key)` sends. -/
def deleteEvent (key : GoString) : Event := ⟨0, EventDelete, key, []⟩

/-- `l.Err()`: the error channel. -/
def Err (l : FileTransactionLogger) : Option (Chan GoError) := l.errors

/-- `l.wg.Add(1)`, the first statement of `WritePut` and `WriteDelete`. -/
def stepAdd (e : Event) (p : Pipeline) : Outcome Pipeline :=
  .ok { p with
    l := { p.l with wg := p.l.wg + 1 }
    sending := p.sending ++ [e]
    submitted := p.submitted + 1 }

/-- `l.events <- e` by the `i`-th waiting caller: blocks on a nil channel and
on a full buffer (capacity 16), panics on a closed channel. -/
def stepSend (i : Nat) (p : Pipeline) : Outcome Pipeline :=
  match p.sending[i]? with
  | none => .blocked
  | some e =>
    match p.l.events with
    | none => .blocked
    | some ch =>
      if ch.closed then .panic p
      else if ch.buf.length < 16 then
        .ok { p with
          l := { p.l with events := some { ch with buf := ch.buf ++ [e] } }
          sending := p.sending.eraseIdx i
          enqueued := p.enqueued ++ [e] }
      else .blocked

/-- `fmt.Fprintf(l.file, "%d\t%d\t%s\t%s\n", l.lastSequence, e.EventType,
e.Key, e.Value)` and the `if err != nil` after it (lines 80-88 of `Run`).
`io` is what the write does: `none` when it succeeds, and the whole record is
appended to the file; `some (code, n)` when it fails with the error `code`
after `n` bytes of the record have reached the file, fewer than the whole
record. A write on a closed file fails before any byte is written. After a
failure the error is sent on `errors` (capacity 1) and the goroutine returns. -/
def fprintfStep (io : Option (Nat × Nat)) (e : Event) (p : Pipeline) : Outcome Pipeline :=
  let record := fmtRecord p.l.lastSequence e.EventType e.Key e.Value
  match (if p.l.fileClosed then some (0, 0) else io) with
  | none =>
    .ok { p with
      l := { p.l with file := p.l.file ++ record }
      consumer := Consumer.written
      appended := p.appended + 1 }
  | some (code, n) =>
    match p.l.errors with
    | none => .blocked
    | some ech =>
      if ech.buf.length < 1 then
        .ok { p with
          l := { p.l with
            file := p.l.file ++ record.take (min n (record.length - 1))
            errors := some { ech with buf := ech.buf ++ [GoError.writeFailure code] } }
          consumer := Consumer.stopped }
      else .blocked

/-- `for e := range events` receiving the next event (line 76 of `Run`). -/
def stepRecv (p : Pipeline) : Outcome Pipeline :=
  match p.consumer, p.l.events with
  | Consumer.receiving, some ch =>
    match ch.buf with
    | [] => .blocked
    | e :: rest =>
      .ok { p with
        l := { p.l with events := some { ch with buf := rest } }
        consumer := Consumer.received e }
  | _, _ => .blocked

/-- `l.lastSequence++` on the `uint64` field (line 78 of `Run`). -/
def stepIncr (p : Pipeline) : Outcome Pipeline :=
  match p.consumer with
  | Consumer.received e =>
    .ok { p with
      l := { p.l with lastSequence := (p.l.lastSequence + 1) % 2 ^ 64 }
      consumer := Consumer.incremented e }
  | _ => .blocked

/-- The call of `fmt.Fprintf` with what follows it (lines 80-88 of `Run`), by
a consumer that has incremented `l.lastSequence`. -/
def stepFprintf (io : Option (Nat × Nat)) (p : Pipeline) : Outcome Pipeline :=
  match p.consumer with
  | Consumer.incremented e => fprintfStep io e p
  | _ => .blocked

/-- One pass of the consumer through lines 76-88 of `Run` without another
goroutine running in between: it receives the next event, increments
`l.lastSequence` and calls `fmt.Fprintf`. -/
def stepWrite (io : Option (Nat × Nat)) (p : Pipeline) : Outcome Pipeline :=
  ((stepRecv p).bind stepIncr id).bind (stepFprintf io) id

/-- `l.wg.Done()` by the consumer (line 90 of `Run`). -/
def stepDone (p : Pipeline) : Outcome Pipeline :=
  match p.consumer with
  | Consumer.written =>
    if p.l.wg = 0 then .panic p
    else .ok { p with l := { p.l with wg := p.l.wg - 1 }, consumer := Consumer.receiving }
  | _ => .blocked

/-- The end of `for e := range events`: the channel is closed and empty. -/
def stepRangeEnd (p : Pipeline) : Outcome Pipeline :=
  match p.consumer, p.l.events with
  | Consumer.receiving, some ch =>
    if ch.closed ∧ ch.buf = [] then .ok { p with consumer := Consumer.finished } else .blocked
  | _, _ => .blocked

/-- `l.Wait()`: `l.wg.Wait()` returns when the counter is zero. -/
def Wait (p : Pipeline) : Outcome Pipeline :=
  if p.l.wg = 0 then .ok p else .blocked

/-- The first statement of `Close`, `l.Wait()`, in a call of `Close` that
starts when no other call is under way (none was made yet, or the one before
has returned). -/
def stepCloseWait (p : Pipeline) : Outcome Pipeline :=
  if p.closer = 0 ∨ p.closer = 3 then (Wait p).bind (fun q => .ok { q with closer := 1 }) id
  else .blocked

/-- The second statement of `Close`: `if l.events != nil { close(l.events) }`. -/
def stepCloseEvents (p : Pipeline) : Outcome Pipeline :=
  if p.closer = 1 then
    match p.l.events with
    | none => .ok { p with closer := 2 }
    | some ch =>
      if ch.closed then .panic p
      else .ok { p with l := { p.l with events := some { ch with closed := true } }, closer := 2 }
  else .blocked

/-- The last statement of `Close`: `return l.file.Close()`. -/
def stepCloseFile (p : Pipeline) : Outcome Pipeline :=
  if p.closer = 2 then .ok { p with l := { p.l with fileClosed := true }, closer := 3 }
  else .blocked

/-- The steps of the pipeline. All are single statements of one goroutine,
except `write`, which is the three steps `recv`, `incr`, `fprintf` of the
consumer in a row. -/
inductive Step where
  /-- a caller of `WritePut` / `WriteDelete`: `l.wg.Add(1)` -/
  | add (e : Event)
  /-- the caller at position `i` of `sending`: `l.events <- e` -/
  | send (i : Nat)
  /-- the consumer: `for e := range events` receives an event -/
  | recv
  /-- the consumer: `l.lastSequence++` -/
  | incr
  /-- the consumer: `fmt.Fprintf` and the `if err != nil` after it; `io` is
  `none` when the write succeeds and `some (code, n)` when it fails with the
  error `code` after `n` bytes -/
  | fprintf (io : Option (Nat × Nat))
  /-- the consumer: `recv`, `incr` and `fprintf io` with no step of another
  goroutine in between -/
  | write (io : Option (Nat × Nat))
  /-- the consumer: `l.wg.Done()` -/
  | done
  /-- the consumer: the `range` loop ends on the closed, drained channel -/
  | rangeEnd
  /-- a caller of `Close`: `l.Wait()` -/
  | closeWait
  /-- a caller of `Close`: `close(l.events)` -/
  | closeEvents
  /-- a caller of `Close`: `l.file.Close()` -/
  | closeFile
  deriving DecidableEq, Repr

/-- The effect of one step. -/
def step (p : Pipeline) : Step → Outcome Pipeline
  | .add e => stepAdd e p
  | .send i => stepSend i p
  | .recv => stepRecv p
  | .incr => stepIncr p
  | .fprintf io => stepFprintf io p
  | .write io => stepWrite io p
  | .done => stepDone p
  | .rangeEnd => stepRangeEnd p
  | .closeWait => stepCloseWait p
  | .closeEvents => stepCloseEvents p
  | .closeFile => stepCloseFile p

/-- A schedule of steps, run from `p`; it ends at the first step that blocks
or panics. -/
def exec : List Step → Pipeline → Outcome Pipeline
  | [], p => .ok p
  | s :: ss, p => (step p s).bind (exec ss) id

/-- `l.WritePut(key, value)` run by one caller without interruption. -/
def WritePut (key value : GoString) (p : Pipeline) : Outcome Pipeline :=
  (stepAdd (putEvent key value) p).bind (fun q => stepSend (q.sending.length - 1) q) id

/-- `l.WriteDelete(key)` run by one caller without interruption. -/
def WriteDelete (key : GoString) (p : Pipeline) : Outcome Pipeline :=
  (stepAdd (deleteEvent key) p).bind (fun q => stepSend (q.sending.length - 1) q) id

/-- `l.Close()` run by one caller without interruption. -/
def Close (p : Pipeline) : Outcome Pipeline :=
  ((stepCloseWait p).bind stepCloseEvents id).bind stepCloseFile id

/-! ## `initializeTransactionLog` of `ch05/ch05_03/server.go` -/

/-- The `switch e.EventType` of the replay loop: the store and the new value
of `err`. -/
def applyEvent (e : Event) (store : Store) : Store × Option GoError :=
  if e.EventType = EventDelete then Delete e.Key store
  else if e.EventType = EventPut then Put e.Key e.Value store
  else (store, none)

/-- The iterations of `for ok && err == nil` that receive an event. -/
def replayLoop : List Event → Store → Store × Option GoError
  | [], store => (store, none)
  | e :: es, store =>
    match applyEvent e store with
    | (store1, none) => replayLoop es store1
    | (store1, some err) => (store1, some err)

/-- What `initializeTransactionLog` leaves behind: its return value, the
store, and the logger (`none` when it could not be created). -/
structure Boot where
  err : Option GoError
  store : Store
  logger : Option Pipeline

/-- `initializeTransactionLog()`. `contents` is the log file as found on disk
(`none`: it cannot be opened), `store` the map before the call. The
`ReadEvents` goroutine hands its events over one by one on the unbuffered
`outEvent`, so the loop has applied them all before the error or the closing
of the channels can be seen. When the goroutine ended with an error, the last
`select` finds both the error on `errors` and the closed `events` ready and
takes either: `pickError` tells whether it takes the error. `logger.Run()`
follows the loop on every path. -/
def initializeTransactionLog (contents : Option GoString) (store : Store)
    (pickError : Bool) : Boot :=
  match NewFileTransactionLogger contents with
  | .error e => ⟨some e, store, none⟩
  | .ok l =>
    let r := ReadEvents l
    let applied := replayLoop r.events store
    let err :=
      match applied.2 with
      | some e => some e
      | none => if pickError then r.error else none
    ⟨err, applied.1, some (Run { l with lastSequence := r.lastSequence })⟩

/-! ### The replay at start-up as a transition system

The goroutine of `ReadEvents` and the loop of `initializeTransactionLog` run
side by side and meet on the unbuffered channel `outEvent` and the channel
`outError` of capacity 1. -/

/-- Where the goroutine of `ReadEvents` stands. -/
inductive Reader where
  /-- at `for scanner.Scan()` -/
  | scanning
  /-- at `outEvent <- e`, waiting for the receiver -/
  | sending (e : Event)
  /-- past the loop, or past a `return` in it; the deferred `close(outError)`
  comes next -/
  | returning
  /-- `close(outError)` done; the deferred `close(outEvent)` comes next -/
  | closing
  /-- both channels closed, the goroutine has ended -/
  | returned
  deriving DecidableEq, Repr

/-- The state of the replay: `lines` are the lines the scanner has not yet
delivered and `tooLong` whether it stops with an error after them;
`lastSequence` is `l.lastSequence`, `e` the variable of the goroutine,
`outError` the error channel, `eventsClosed` whether `outEvent` is closed;
`store`, `err` and `ok` are the store and the variables of the loop in
`initializeTransactionLog`. -/
structure Recovery where
  lines : List GoString
  tooLong : Bool
  lastSequence : Nat
  e : Event
  reader : Reader
  outError : Chan GoError
  eventsClosed : Bool
  store : Store
  err : Option GoError
  ok : Bool

/-- The state when `initializeTransactionLog` has opened a log file with
these contents and called `ReadEvents`. -/
def Recovery.init (contents : GoString) (store : Store) : Recovery :=
  { lines := (scanLines contents).1
    tooLong := (scanLines contents).2
    lastSequence := 0
    e := Event.zero
    reader := Reader.scanning
    outError := ⟨[], false⟩
    eventsClosed := false
    store := store
    err := none
    ok := true }

/-- The atomic steps of the replay: three of the goroutine, four of the
`select` in the loop. -/
inductive RStep where
  /-- the goroutine: `scanner.Scan()` and, for a line, the loop body up to the
  send of the event or of an error; at the end of the lines, the check of
  `scanner.Err()` -/
  | read
  /-- the goroutine: `close(outError)` -/
  | closeError
  /-- the goroutine: `close(outEvent)` -/
  | closeEvent
  /-- the loop: `case e, ok = <-events` taking the event the goroutine sends -/
  | recvEvent
  /-- the loop: `case e, ok = <-events` on the closed channel -/
  | recvClosedEvent
  /-- the loop: `case err, ok = <-errors` taking a buffered error -/
  | recvError
  /-- the loop: `case err, ok = <-errors` on the closed, empty channel -/
  | recvClosedError
  deriving DecidableEq, Repr

/-- `outError <- err`; the goroutine sends at most one error, so the buffer of
capacity 1 has room. -/
def Recovery.fail (st : Recovery) (err : GoError) : Recovery :=
  { st with
    outError := { st.outError with buf := st.outError.buf ++ [err] }
    reader := Reader.returning }

/-- The effect of one step of the replay; `none` when the step cannot be
taken in this state. The steps of the loop need `ok && err == nil`. -/
def rstep (st : Recovery) : RStep → Option Recovery
  | .read =>
    match st.reader, st.lines with
    | Reader.scanning, [] =>
      if st.tooLong then some (st.fail GoError.readFailure)
      else some { st with reader := Reader.returning }
    | Reader.scanning, line :: rest =>
      let e1 := Sscanf line st.e
      if st.lastSequence ≥ e1.Sequence then
        some ({ st with lines := rest, e := e1 }.fail GoError.outOfSequence)
      else
        match QueryUnescape e1.Value with
        | .error esc =>
          some ({ st with lines := rest, e := e1 }.fail (GoError.decodeFailure esc))
        | .ok uv =>
          some { st with
            lines := rest
            e := { e1 with Value := uv }
            lastSequence := e1.Sequence
            reader := Reader.sending { e1 with Value := uv } }
    | _, _ => none
  | .closeError =>
    match st.reader with
    | Reader.returning =>
      some { st with outError := { st.outError with closed := true }, reader := Reader.closing }
    | _ => none
  | .closeEvent =>
    match st.reader with
    | Reader.closing => some { st with eventsClosed := true, reader := Reader.returned }
    | _ => none
  | .recvEvent =>
    match st.reader with
    | Reader.sending ev =>
      if st.ok ∧ st.err = none then
        some { st with
          store := (applyEvent ev st.store).1
          err := (applyEvent ev st.store).2
          ok := true
          reader := Reader.scanning }
      else none
    | _ => none
  | .recvClosedEvent =>
    if st.ok ∧ st.err = none ∧ st.eventsClosed then some { st with ok := false } else none
  | .recvError =>
    match st.outError.buf with
    | x :: rest =>
      if st.ok ∧ st.err = none then
        some { st with
          err := some x
          ok := true
          outError := { st.outError with buf := rest } }
      else none
    | [] => none
  | .recvClosedError =>
    if st.ok ∧ st.err = none ∧ st.outError.closed ∧ st.outError.buf = [] then
      some { st with err := none, ok := false }
    else none

/-- A schedule of steps of the replay, run from `st`; `none` when one of them
cannot be taken. -/
def rexec : List RStep → Recovery → Option Recovery
  | [], st => some st
  | s :: ss, st =>
    match rstep st s with
    | none => none
    | some st1 => rexec ss st1

/-- Whether the loop `for ok && err == nil` has ended. -/
def Recovery.loopEnded (st : Recovery) : Bool := !st.ok || st.err.isSome

/-- What follows the loop in `initializeTransactionLog`: `logger.Run()`, then
`return err`. -/
def Recovery.finish (contents : GoString) (st : Recovery) : Boot :=
  ⟨st.err, st.store, some (Run ⟨none, none, st.lastSequence, contents, false, 0⟩)⟩

/-- The function `initializeTransactionLog()` run under a schedule of the
steps of its replay: `contents` is the log file as found on disk (`none`: it
cannot be opened), `store` the map before the call. The result is `none` when
`sched` is not a complete run, that is, when one of its steps cannot be taken
or the loop has not ended after it. -/
def initializeTransactionLogSched (contents : Option GoString) (store : Store)
    (sched : List RStep) : Option Boot :=
  match NewFileTransactionLogger contents with
  | .error e => some ⟨some e, store, none⟩
  | .ok l =>
    match rexec sched (Recovery.init l.file store) with
    | none => none
    | some st => if st.loopEnded then some (st.finish l.file) else none

/-- Whether the goroutine of `ReadEvents` has left its loop. -/
def Reader.pastLoop : Reader → Bool
  | .scanning => false
  | .sending _ => false
  | _ => true

/-- What holds of the replay in every state it reaches, with `R` what the
goroutine of `ReadEvents` does in all and `store0` the store at the start:
some events `applied` have been received and applied; while the goroutine is
in its loop the loop of `initializeTransactionLog` runs on, and the events
still to come are those of the lines left; once it is past its loop its
events have all been applied, and its error, if any, is in the channel
unless the loop has taken it. -/
def RInv (R : Replay) (store0 : Store) (st : Recovery) : Prop :=
  ∃ applied : List Event,
    st.store = (replayLoop applied store0).1 ∧
    match st.reader with
    | Reader.scanning =>
      st.ok = true ∧ st.err = none ∧ st.outError = ⟨[], false⟩ ∧ st.eventsClosed = false ∧
      R.events = applied ++ (readLoop st.tooLong st.lines st.lastSequence st.e).events ∧
      R.error = (readLoop st.tooLong st.lines st.lastSequence st.e).error ∧
      R.lastSequence = (readLoop st.tooLong st.lines st.lastSequence st.e).lastSequence
    | Reader.sending ev =>
      st.ok = true ∧ st.err = none ∧ st.outError = ⟨[], false⟩ ∧ st.eventsClosed = false ∧
      R.events = applied ++ ev :: (readLoop st.tooLong st.lines st.lastSequence st.e).events ∧
      R.error = (readLoop st.tooLong st.lines st.lastSequence st.e).error ∧
      R.lastSequence = (readLoop st.tooLong st.lines st.lastSequence st.e).lastSequence
    | _ =>
      R.events = applied ∧ R.lastSequence = st.lastSequence ∧
      ((st.err = none ∧ st.outError.buf = R.error.toList) ∨
        (st.err = R.error ∧ st.err ≠ none ∧ st.outError.buf = []))

/-! ## Specification-side definitions -/

/-- The bytes a consumer that starts with `lastSequence = s` appends for the
events `es`, all writes succeeding: the k-th record carries the sequence
number `(s + k) mod 2^64`. -/
def records : Nat → List Event → GoString
  | _, [] => []
  | s, e :: es =>
    fmtRecord ((s + 1) % 2 ^ 64) e.EventType e.Key e.Value ++ records (s + 1) es

/-- The records of the events `es` numbered `s + 1`, `s + 2`, ... in order. -/
def numbered : Nat → List Event → GoString
  | _, [] => []
  | s, e :: es => fmtRecord (s + 1) e.EventType e.Key e.Value ++ numbered (s + 1) es

/-- Whether the consumer holds an event it has received and not yet written. -/
def Consumer.holding : Consumer → Bool
  | .received _ => true
  | .incremented _ => true
  | _ => false

/-- The number of events the consumer has taken from the channel: one per
successful write, and one more while it holds an event or once a write has
failed. -/
def Pipeline.dequeued (p : Pipeline) : Nat :=
  p.appended + (if p.consumer.holding ∨ p.consumer = Consumer.stopped then 1 else 0)

/-- Whether the consumer stands between `l.lastSequence++` and `fmt.Fprintf`. -/
def Consumer.isIncremented : Consumer → Bool
  | .incremented _ => true
  | _ => false

/-- The number of times the consumer has executed `l.lastSequence++`. -/
def Pipeline.increments (p : Pipeline) : Nat :=
  p.appended +
    (if p.consumer.isIncremented ∨ p.consumer = Consumer.stopped then 1 else 0)

/-- The invariant of the pipeline started by `Run` on the logger `l0`. The
file is the file `Run` found, the records of the events written so far, and,
once a write has failed, the bytes that write has left: fewer than the record
of the event it was writing. -/
def Inv (l0 : FileTransactionLogger) (p : Pipeline) : Prop :=
  (∃ ch, p.l.events = some ch ∧ ch.buf = p.enqueued.drop p.dequeued) ∧
  p.dequeued ≤ p.enqueued.length ∧
  (∃ torn, p.l.file = l0.file ++ records l0.lastSequence (p.enqueued.take p.appended) ++ torn ∧
    (p.consumer ≠ Consumer.stopped → torn = []) ∧
    (p.consumer = Consumer.stopped → ∃ e n, p.enqueued[p.appended]? = some e ∧
      n < (fmtRecord ((l0.lastSequence + (p.appended + 1)) % 2 ^ 64) e.EventType e.Key
        e.Value).length ∧
      torn = (fmtRecord ((l0.lastSequence + (p.appended + 1)) % 2 ^ 64) e.EventType e.Key
        e.Value).take n)) ∧
  p.l.lastSequence % 2 ^ 64 = (l0.lastSequence + p.increments) % 2 ^ 64 ∧
  p.l.wg + p.appended =
    l0.wg + p.submitted + (if p.consumer = Consumer.written then 1 else 0) ∧
  p.submitted = p.enqueued.length + p.sending.length ∧
  (∃ ech, p.l.errors = some ech ∧
    ech.buf.length = (if p.consumer = Consumer.stopped then 1 else 0)) ∧
  (∀ e, p.consumer = Consumer.received e ∨ p.consumer = Consumer.incremented e →
    p.enqueued[p.appended]? = some e) ∧
  (p.consumer.isIncremented = true → p.l.lastSequence < 2 ^ 64)

/-- The state an operation ended in normally, if it did. -/
def Outcome.state? {σ : Type} : Outcome σ → Option σ
  | .ok s => some s
  | _ => none

/-- Whether an operation ended with a run-time panic. -/
def Outcome.isPanic {σ : Type} : Outcome σ → Bool
  | .panic _ => true
  | _ => false

/-- The logger `NewFileTransactionLogger` returns for a log file that did not
exist before. -/
def freshLogger : FileTransactionLogger := ⟨none, none, 0, [], false, 0⟩

/-- Once `close(l.events)` of `Close` has run, the channel is closed. -/
def ClosedInv (p : Pipeline) : Prop :=
  ∃ ch, p.l.events = some ch ∧ (2 ≤ p.closer → ch.closed = true)

/-- The state `sched` leads to from `p`, or `p` when it blocks or panics. -/
def after (sched : List Step) (p : Pipeline) : Pipeline :=
  (exec sched p).state?.getD p

/-- Example state: a fresh logger after `Run` and two writes, drained. -/
def exampleDrained : Pipeline :=
  after [.add (putEvent (bytes "a") (bytes "1")), .add (deleteEvent (bytes "a")),
    .send 1, .send 0, .write none, .done, .write none, .done] (Run freshLogger)

/-- Example state: a fresh logger after `Run` and `Close`. -/
def exampleClosed : Pipeline :=
  after [.closeWait, .closeEvents, .closeFile] (Run freshLogger)

/-- Example state: one record written, a second event waiting on the channel. -/
def exampleBeforeFailure : Pipeline :=
  after [.add (putEvent (bytes "a") (bytes "1")), .send 0, .write none, .done,
    .add (putEvent (bytes "b") (bytes "2")), .send 0] (Run freshLogger)

/-- Example state: the write of the second event has failed with error 5
after 3 bytes. -/
def exampleFailed : Pipeline := after [.write (some (5, 3))] exampleBeforeFailure

/-- Example state: a third event was submitted after the failure. -/
def exampleAfterFailure : Pipeline :=
  after [.add (putEvent (bytes "c") (bytes "3")), .send 0] exampleFailed

/-! ## Definitions used to state the replay claim -/

/-- A Unicode scalar value: a code point up to U+10FFFF that is not a surrogate. -/
def validRune (r : Nat) : Bool := r < 0xD800 || (0xE000 ≤ r && r ≤ 0x10FFFF)

/-- The UTF-8 encoding of a sequence of code points. -/
def encodeAll (rs : List Nat) : GoString := (rs.map encodeRune).flatten

/-- The runes of a record line. -/
def lineRunes (seq typ : Nat) (kr vr : List Nat) : List Nat :=
  fmtUint seq ++ 9 :: (fmtUint typ ++ 9 :: (kr ++ 9 :: vr))

/-- One operation on the store. -/
inductive Op where
  | put (key value : GoString)
  | delete (key : GoString)

/-- The event the handler submits for an operation. -/
def Op.event : Op → Event
  | .put key value => putEvent key value
  | .delete key => deleteEvent key

/-- The operation applied to the store. -/
def applyOp (store : Store) : Op → Store
  | .put key value => (Put key value store).1
  | .delete key => (Delete key store).1

/-- A sequence of operations applied in order. -/
def applyOps (ops : List Op) (store : Store) : Store := ops.foldl applyOp store

/-- Runes that are valid and not white space. -/
def plainRunes (rs : List Nat) : Prop := ∀ r ∈ rs, validRune r = true ∧ isSpace r = false

/-- A word: the UTF-8 encoding of a non-empty sequence of code points none of
which is white space. -/
def isWord (s : GoString) : Prop := ∃ rs, rs ≠ [] ∧ plainRunes rs ∧ s = encodeAll rs

/-- The operations the text format of the log can carry. -/
def Op.ok : Op → Prop
  | .put key value =>
    isWord key ∧ isWord value ∧ 37 ∉ value ∧ 43 ∉ value ∧ key.length + value.length ≤ 65511
  | .delete key => isWord key ∧ key.length ≤ 65511

/-- What `Op.ok` says about the event of the operation. -/
def goodEvent (e : Event) : Prop :=
  (e.EventType = 1 ∨ e.EventType = 2) ∧
  ∃ kr vr, kr ≠ [] ∧ plainRunes kr ∧ plainRunes vr ∧ e.Key = encodeAll kr ∧
    e.Value = encodeAll vr ∧ 37 ∉ e.Value ∧ 43 ∉ e.Value ∧
    e.Key.length + e.Value.length ≤ 65511

/-- The lines of `records s es`. -/
def recLines : Nat → List Event → List GoString
  | _, [] => []
  | s, e :: es =>
    (fmtUint ((s + 1) % 2 ^ 64) ++ [9] ++ fmtUint e.EventType ++ [9] ++ e.Key ++ [9] ++ e.Value)
      :: recLines (s + 1) es

/-- The events `ReadEvents` emits for `recLines s es`; `v0` is the value left
in its variable `e` by the line before. -/
def replayed : GoString → Nat → List Event → List Event
  | _, _, [] => []
  | v0, s, e :: es =>
    ⟨s + 1, e.EventType, e.Key, if e.Value = [] then v0 else e.Value⟩ ::
      replayed (if e.Value = [] then v0 else e.Value) (s + 1) es

/-- The schedule in which every operation is submitted and drained before
the next one is submitted. -/
def drainSchedule (ops : List Op) : List Step :=
  (ops.map (fun op => [Step.add op.event, Step.send 0, Step.write none, Step.done])).flatten

/-- A pipeline at rest: the consumer waits for an event, no caller stands at
the send, the channel is open and empty, the file is open. -/
def Quiescent (p : Pipeline) : Prop :=
  p.consumer = Consumer.receiving ∧ p.sending = [] ∧ p.l.events = some ⟨[], false⟩ ∧
  p.l.fileClosed = false

/-- Example: three operations. -/
def exampleOps : List Op :=
  [.put (bytes "a") (bytes "1"), .put (bytes "b") (bytes "2"), .delete (bytes "a")]

/-- The log of the scenario `Put("a","1")`, `Put("b","2")`, `Delete("a")`. -/
def scenarioLog : GoString := bytes "1\t2\ta\t1\n2\t2\tb\t2\n3\t1\ta\t\n"

end Ch05_03

/-! ## `ch04/retry.go` -/

namespace Ch04

/-- The Go values of type `error` in `retry.go` and its test: an error made
by the effector (`errors.New(text)`), or `ctx.Err()` of a cancelled context. -/
inductive Error where
  | effector (text : GoString)
  | context
  deriving DecidableEq, Repr

/-- `type Effector func(context.Context) (string, error)`. A Go function may
read and write program state (the test's effector increments the package
variable `count`): `σ` is that state, and a call maps the state before it to
the pair it returns and the state after it. -/
abbrev Effector (σ : Type) := σ → (GoString × Option Error) × σ

/-- The loop `for r := 0; ; r++` in the function `Retry` returns, from the
iteration with counter `r` on; `fuel` bounds the number of iterations run.
`ctxDone r` tells whether the `select` of iteration `r` takes `<-ctx.Done()`
rather than `<-time.After(delay)`; for a context that is never cancelled it is
always false. `none` stands for "fuel exhausted". -/
def retryLoop {σ : Type} (effector : Effector σ) (retries : Int) (ctxDone : Nat → Bool) :
    Nat → Int → σ → Option ((GoString × Option Error) × σ)
  | 0, _, _ => none
  | fuel + 1, r, st =>
    match effector st with
    | ((response, err), st1) =>
      if err.isNone || decide (r ≥ retries) then some ((response, err), st1)
      else if ctxDone r.toNat then some (([], some Error.context), st1)
      else retryLoop effector retries ctxDone fuel (r + 1) st1

/-- `Retry(effector, retries, delay)`: the function it returns, called with a
context described by `ctxDone`. The delay only sets how long each `select`
waits. -/
def Retry {σ : Type} (effector : Effector σ) (retries : Int) (_delay : Int)
    (ctxDone : Nat → Bool) (fuel : Nat) (st : σ) :
    Option ((GoString × Option Error) × σ) :=
  retryLoop effector retries ctxDone fuel 0 st

/-- `EmulateTransientError` of `retry_test.go`; the state is the package
variable `count`. -/
def EmulateTransientError : Effector Nat := fun count =>
  if count + 1 ≤ 3 then ((bytes "intentional fail", some (Error.effector (bytes "error"))), count + 1)
  else ((bytes "success", none), count + 1)

/-- The state after the first `k` calls of the effector, one after the other. -/
def stateAfter {σ : Type} (effector : Effector σ) : Nat → σ → σ
  | 0, st => st
  | k + 1, st => stateAfter effector k (effector st).2

/-- What call number `k + 1` of the effector returns. -/
def resultOf {σ : Type} (effector : Effector σ) (k : Nat) (st : σ) : GoString × Option Error :=
  (effector (stateAfter effector k st)).1

end Ch04

/-! # Theorems -/

namespace Ch05_03

/-! ## Lemmas -/

theorem records_append (s : Nat) (es fs : List Event) :
    records s (es ++ fs) = records s es ++ records (s + es.length) fs := by
  induction es generalizing s with
  | nil => simp [records]
  | cons e es ih =>
    have h : s + (e :: es).length = s + 1 + es.length := by
      simp only [List.length_cons]; omega
    rw [h, List.cons_append]
    simp only [records, List.append_assoc]
    rw [ih]

theorem drop_eq_cons {α : Type} (l : List α) (n : Nat) (e : α) (rest : List α)
    (h : l.drop n = e :: rest) :
    l.drop (n + 1) = rest ∧ l.take (n + 1) = l.take n ++ [e] ∧ n < l.length := by
  induction l generalizing n with
  | nil => simp at h
  | cons a l ih =>
    cases n with
    | zero =>
      simp only [List.drop_zero, List.cons.injEq] at h
      obtain ⟨rfl, rfl⟩ := h
      simp
    | succ n =>
      simp only [List.drop_succ_cons] at h
      obtain ⟨h1, h2, h3⟩ := ih n h
      refine ⟨by simpa using h1, ?_, by simpa using h3⟩
      simp only [List.take_succ_cons, List.cons_append, h2]

theorem getElem?_of_drop_eq_cons {α : Type} (l : List α) (n : Nat) (e : α) (rest : List α)
    (h : l.drop n = e :: rest) : l[n]? = some e := by
  have h1 : (l.drop n)[0]? = some e := by rw [h]; simp
  simpa using h1

theorem take_succ_of_getElem? {α : Type} (l : List α) (n : Nat) (e : α)
    (h : l[n]? = some e) : l.take (n + 1) = l.take n ++ [e] := by
  rw [List.take_succ, h]; rfl

theorem lt_length_of_getElem? {α : Type} (l : List α) (n : Nat) (e : α)
    (h : l[n]? = some e) : n < l.length := by
  rcases List.getElem?_eq_some.1 h with ⟨hi, _⟩
  exact hi

theorem seq_next (a b : Nat) (h : a % 2 ^ 64 = b % 2 ^ 64) :
    (a + 1) % 2 ^ 64 = (b + 1) % 2 ^ 64 := by
  omega

theorem bind_ok {σ τ : Type} (o : Outcome σ) (f : σ → Outcome τ) (g : σ → τ) (q : τ)
    (h : o.bind f g = .ok q) : ∃ s, o = .ok s ∧ f s = .ok q := by
  cases o with
  | ok s => exact ⟨s, rfl, h⟩
  | blocked => simp [Outcome.bind] at h
  | panic s => simp [Outcome.bind] at h

theorem stepWrite_ok (io : Option (Nat × Nat)) (p q : Pipeline) (h : stepWrite io p = .ok q) :
    ∃ p1 p2, stepRecv p = .ok p1 ∧ stepIncr p1 = .ok p2 ∧ stepFprintf io p2 = .ok q := by
  obtain ⟨p2, h2, h3⟩ := bind_ok _ _ _ _ h
  obtain ⟨p1, h0, h1⟩ := bind_ok _ _ _ _ h2
  exact ⟨p1, p2, h0, h1, h3⟩

theorem fmtRecord_length_pos (seq typ : Nat) (key value : GoString) :
    0 < (fmtRecord seq typ key value).length := by
  simp [fmtRecord]

theorem inv_Run (l : FileTransactionLogger) : Inv l (Run l) := by
  simp [Inv, Run, Pipeline.dequeued, Pipeline.increments, Consumer.holding,
    Consumer.isIncremented, records]

theorem inv_recv (l0 : FileTransactionLogger) (p q : Pipeline) (h : Inv l0 p)
    (hs : stepRecv p = .ok q) : Inv l0 q := by
  obtain ⟨⟨ch, hch, hbuf⟩, hdq, ⟨torn, hfile, ht1, ht2⟩, hseq, hwg, hsub, ⟨ech, hech, helen⟩,
    hhold, hinc⟩ := h
  simp only [stepRecv] at hs
  cases hc : p.consumer <;> simp only [hc, hch] at hs <;> try (simp at hs)
  cases hb : ch.buf with
  | nil => simp [hb] at hs
  | cons e rest =>
    simp only [hb, Outcome.ok.injEq] at hs
    subst hs
    simp only [Pipeline.dequeued, Pipeline.increments, hc, Consumer.holding,
      Consumer.isIncremented, reduceCtorEq, Bool.false_eq_true, or_self, if_false,
      Nat.add_zero] at hbuf hdq hseq hwg helen
    rw [hb] at hbuf
    obtain ⟨hd1, _, hd3⟩ := drop_eq_cons _ _ _ _ hbuf.symm
    refine ⟨⟨_, rfl, ?_⟩, ?_, ⟨torn, hfile, ?_, ?_⟩, ?_, ?_, hsub, ⟨ech, hech, ?_⟩, ?_, ?_⟩
    · simp [Pipeline.dequeued, Consumer.holding, hd1]
    · simp only [Pipeline.dequeued, Consumer.holding, true_or, if_true]; omega
    · intro _; exact ht1 (by simp [hc])
    · intro h; simp at h
    · simpa [Pipeline.increments, Consumer.isIncremented] using hseq
    · simpa using hwg
    · simpa using helen
    · intro e2 he2
      simp only [Consumer.received.injEq, reduceCtorEq, or_false] at he2
      subst he2
      exact getElem?_of_drop_eq_cons _ _ _ _ hbuf.symm
    · intro h; simp [Consumer.isIncremented] at h

theorem inv_incr (l0 : FileTransactionLogger) (p q : Pipeline) (h : Inv l0 p)
    (hs : stepIncr p = .ok q) : Inv l0 q := by
  obtain ⟨⟨ch, hch, hbuf⟩, hdq, ⟨torn, hfile, ht1, ht2⟩, hseq, hwg, hsub, ⟨ech, hech, helen⟩,
    hhold, hinc⟩ := h
  simp only [stepIncr] at hs
  cases hc : p.consumer <;> simp only [hc] at hs <;> try (exact Outcome.noConfusion hs)
  rename_i e
  simp only [Outcome.ok.injEq] at hs
  subst hs
  simp only [Pipeline.dequeued, Pipeline.increments, hc, Consumer.holding,
    Consumer.isIncremented, reduceCtorEq, Bool.false_eq_true, or_self, or_false, true_or,
    if_false, if_true, Nat.add_zero] at hbuf hdq hseq hwg helen
  refine ⟨⟨ch, hch, ?_⟩, ?_, ⟨torn, hfile, ?_, ?_⟩, ?_, ?_, hsub, ⟨ech, hech, ?_⟩, ?_, ?_⟩
  · simpa [Pipeline.dequeued, Consumer.holding] using hbuf
  · simpa [Pipeline.dequeued, Consumer.holding] using hdq
  · intro _; exact ht1 (by simp [hc])
  · intro h; simp at h
  · simp only [Pipeline.increments, Consumer.isIncremented, true_or, if_true, Nat.reducePow]
      at hseq ⊢
    omega
  · simpa using hwg
  · simpa using helen
  · intro e2 he2
    simp only [reduceCtorEq, Consumer.incremented.injEq, false_or] at he2
    subst he2
    exact hhold _ (Or.inl hc)
  · intro _
    exact Nat.mod_lt _ (by norm_num)

theorem inv_fprintf (l0 : FileTransactionLogger) (p q : Pipeline)
    (io : Option (Nat × Nat)) (h : Inv l0 p) (hs : stepFprintf io p = .ok q) : Inv l0 q := by
  obtain ⟨⟨ch, hch, hbuf⟩, hdq, ⟨torn, hfile, ht1, ht2⟩, hseq, hwg, hsub, ⟨ech, hech, helen⟩,
    hhold, hinc⟩ := h
  simp only [stepFprintf] at hs
  cases hc : p.consumer <;> simp only [hc] at hs <;> try (exact Outcome.noConfusion hs)
  rename_i e
  have he := hhold e (Or.inr hc)
  have hlt := lt_length_of_getElem? _ _ _ he
  have htorn : torn = [] := ht1 (by simp [hc])
  subst htorn
  have hbound := hinc (by simp [hc, Consumer.isIncremented])
  simp only [Pipeline.dequeued, Pipeline.increments, hc, Consumer.holding,
    Consumer.isIncremented, reduceCtorEq, Bool.false_eq_true, or_self, or_false, true_or,
    if_false, if_true, Nat.add_zero] at hbuf hdq hseq hwg helen
  have hlast : p.l.lastSequence = (l0.lastSequence + (p.appended + 1)) % 2 ^ 64 := by
    rw [← hseq]
    exact (Nat.mod_eq_of_lt hbound).symm
  simp only [fprintfStep] at hs
  cases hio : (if p.l.fileClosed = true then some (0, 0) else io) with
  | none =>
    simp only [hio, Outcome.ok.injEq] at hs
    subst hs
    refine ⟨⟨ch, hch, ?_⟩, ?_, ⟨[], ?_, ?_, ?_⟩, ?_, ?_, hsub, ⟨ech, hech, ?_⟩, ?_, ?_⟩
    · simpa [Pipeline.dequeued, Consumer.holding] using hbuf
    · simpa [Pipeline.dequeued, Consumer.holding] using hdq
    · simp only [take_succ_of_getElem? _ _ _ he, records_append, records, List.append_nil,
        hfile, List.append_assoc, List.length_take, Nat.min_eq_left (Nat.le_of_lt hlt)]
      rw [hlast, Nat.add_assoc]
    · intro _; rfl
    · intro h; simp at h
    · simpa [Pipeline.increments, Consumer.isIncremented] using hseq
    · simp only [if_true]; omega
    · simpa using helen
    · intro e2 he2; simp at he2
    · intro h; simp [Consumer.isIncremented] at h
  | some cn =>
    obtain ⟨code, n⟩ := cn
    have hnil : ech.buf = [] := List.length_eq_zero.1 helen
    simp only [hio, hech, hnil, List.length_nil, Nat.lt_one_iff, if_true,
      Outcome.ok.injEq] at hs
    subst hs
    refine ⟨⟨ch, hch, ?_⟩, ?_, ⟨(fmtRecord p.l.lastSequence e.EventType e.Key e.Value).take
        (min n ((fmtRecord p.l.lastSequence e.EventType e.Key e.Value).length - 1)),
        ?_, ?_, ?_⟩, ?_, ?_, hsub, ⟨_, rfl, ?_⟩, ?_, ?_⟩
    · simpa [Pipeline.dequeued, Consumer.holding] using hbuf
    · simpa [Pipeline.dequeued, Consumer.holding] using hdq
    · simp only [hfile, List.append_nil]
    · intro h; simp at h
    · intro _
      refine ⟨e, min n ((fmtRecord p.l.lastSequence e.EventType e.Key e.Value).length - 1),
        he, ?_, ?_⟩
      · rw [← hlast]
        have := fmtRecord_length_pos p.l.lastSequence e.EventType e.Key e.Value
        omega
      · rw [← hlast]
    · simpa [Pipeline.increments, Consumer.isIncremented] using hseq
    · simpa using hwg
    · simp
    · intro e2 he2; simp at he2
    · intro h; simp [Consumer.isIncremented] at h

theorem inv_step (l0 : FileTransactionLogger) (p q : Pipeline) (st : Step)
    (h : Inv l0 p) (hs : step p st = .ok q) : Inv l0 q := by
  cases st with
  | recv => exact inv_recv l0 p q h hs
  | incr => exact inv_incr l0 p q h hs
  | fprintf io => exact inv_fprintf l0 p q io h hs
  | write io =>
    obtain ⟨p1, p2, h1, h2, h3⟩ := stepWrite_ok io p q hs
    exact inv_fprintf l0 p2 q io (inv_incr l0 p1 p2 (inv_recv l0 p p1 h h1) h2) h3
  | add e =>
    obtain ⟨⟨ch, hch, hbuf⟩, hdq, hfile, hseq, hwg, hsub, herr, hhold, hinc⟩ := h
    simp only [step, stepAdd, Outcome.ok.injEq] at hs
    subst hs
    refine ⟨⟨ch, hch, hbuf⟩, hdq, hfile, hseq, ?_, ?_, herr, hhold, hinc⟩
    · simp only []; omega
    · simp only [List.length_append, List.length_singleton]; omega
  | send i =>
    obtain ⟨⟨ch, hch, hbuf⟩, hdq, ⟨torn, hfile, ht1, ht2⟩, hseq, hwg, hsub, herr, hhold,
      hinc⟩ := h
    simp only [step, stepSend] at hs
    cases hget : p.sending[i]? with
    | none => simp [hget] at hs
    | some e =>
      simp only [hget, hch] at hs
      split at hs
      · simp at hs
      · split at hs
        · simp only [Outcome.ok.injEq] at hs
          subst hs
          have hlt : i < p.sending.length := lt_length_of_getElem? _ _ _ hget
          have hap : p.appended ≤ p.enqueued.length := by
            simp only [Pipeline.dequeued] at hdq; omega
          refine ⟨⟨_, rfl, ?_⟩, ?_, ⟨torn, ?_, ht1, ?_⟩, hseq, hwg, ?_, herr, ?_, hinc⟩
          · show ch.buf ++ [e] = List.drop p.dequeued (p.enqueued ++ [e])
            rw [List.drop_append_of_le_length hdq, hbuf]
          · show p.dequeued ≤ (p.enqueued ++ [e]).length
            simp only [List.length_append, List.length_singleton]
            omega
          · show p.l.file = l0.file ++ records l0.lastSequence
              (List.take p.appended (p.enqueued ++ [e])) ++ torn
            rw [List.take_append_of_le_length hap]
            exact hfile
          · intro hst
            obtain ⟨e0, n, h1, h2, h3⟩ := ht2 hst
            refine ⟨e0, n, ?_, h2, h3⟩
            show (p.enqueued ++ [e])[p.appended]? = some e0
            rw [List.getElem?_append_left (lt_length_of_getElem? _ _ _ h1)]
            exact h1
          · simp only [List.length_append, List.length_singleton, List.length_eraseIdx, hlt,
              if_true]
            omega
          · intro e0 he0
            show (p.enqueued ++ [e])[p.appended]? = some e0
            have := hhold e0 he0
            rw [List.getElem?_append_left (lt_length_of_getElem? _ _ _ this)]
            exact this
        · simp at hs
  | done =>
    obtain ⟨⟨ch, hch, hbuf⟩, hdq, ⟨torn, hfile, ht1, ht2⟩, hseq, hwg, hsub, ⟨ech, hech, helen⟩,
      hhold, hinc⟩ := h
    simp only [step, stepDone] at hs
    cases hc : p.consumer <;> simp only [hc] at hs <;> try (exact Outcome.noConfusion hs)
    split at hs
    · simp at hs
    · rename_i hne
      simp only [Outcome.ok.injEq] at hs
      subst hs
      simp only [Pipeline.dequeued, Pipeline.increments, hc, Consumer.holding,
        Consumer.isIncremented, reduceCtorEq, Bool.false_eq_true, or_self, if_false, if_true,
        Nat.add_zero] at hbuf hdq hseq hwg helen
      refine ⟨⟨ch, hch, ?_⟩, ?_, ⟨torn, hfile, ?_, ?_⟩, ?_, ?_, hsub, ⟨ech, hech, ?_⟩, ?_, ?_⟩
      · simpa [Pipeline.dequeued, Consumer.holding] using hbuf
      · simpa [Pipeline.dequeued, Consumer.holding] using hdq
      · intro _; exact ht1 (by simp [hc])
      · intro h; simp at h
      · simpa [Pipeline.increments, Consumer.isIncremented] using hseq
      · simp only [reduceCtorEq, if_false]; omega
      · simpa using helen
      · intro e2 he2; simp at he2
      · intro h; simp [Consumer.isIncremented] at h
  | rangeEnd =>
    obtain ⟨⟨ch, hch, hbuf⟩, hdq, ⟨torn, hfile, ht1, ht2⟩, hseq, hwg, hsub, ⟨ech, hech, helen⟩,
      hhold, hinc⟩ := h
    simp only [step, stepRangeEnd] at hs
    cases hc : p.consumer <;> simp only [hc, hch] at hs <;> try (exact Outcome.noConfusion hs)
    split at hs
    · simp only [Outcome.ok.injEq] at hs
      subst hs
      simp only [Pipeline.dequeued, Pipeline.increments, hc, Consumer.holding,
        Consumer.isIncremented, reduceCtorEq, Bool.false_eq_true, or_self, if_false,
        Nat.add_zero] at hbuf hdq hseq hwg helen
      refine ⟨⟨ch, hch, ?_⟩, ?_, ⟨torn, hfile, ?_, ?_⟩, ?_, ?_, hsub, ⟨ech, hech, ?_⟩, ?_, ?_⟩
      · simpa [Pipeline.dequeued, Consumer.holding] using hbuf
      · simpa [Pipeline.dequeued, Consumer.holding] using hdq
      · intro _; exact ht1 (by simp [hc])
      · intro h; simp at h
      · simpa [Pipeline.increments, Consumer.isIncremented] using hseq
      · simpa using hwg
      · simpa using helen
      · intro e2 he2; simp at he2
      · intro h; simp [Consumer.isIncremented] at h
    · simp at hs
  | closeWait =>
    simp only [step, stepCloseWait, Wait] at hs
    split at hs
    · split at hs
      · simp only [Outcome.bind, id, Outcome.ok.injEq] at hs
        subst hs
        exact h
      · simp [Outcome.bind] at hs
    · simp at hs
  | closeEvents =>
    obtain ⟨⟨ch, hch, hbuf⟩, hrest⟩ := h
    simp only [step, stepCloseEvents, hch] at hs
    split at hs
    · split at hs
      · simp at hs
      · simp only [Outcome.ok.injEq] at hs
        subst hs
        exact ⟨⟨_, rfl, hbuf⟩, hrest⟩
    · simp at hs
  | closeFile =>
    simp only [step, stepCloseFile] at hs
    split at hs
    · simp only [Outcome.ok.injEq] at hs
      subst hs
      exact h
    · simp at hs

theorem inv_exec (l0 : FileTransactionLogger) (sched : List Step) (p q : Pipeline)
    (h : Inv l0 p) (hs : exec sched p = .ok q) : Inv l0 q := by
  induction sched generalizing p with
  | nil =>
    simp only [exec, Outcome.ok.injEq] at hs
    subst hs
    exact h
  | cons st ss ih =>
    simp only [exec] at hs
    obtain ⟨r, h1, h2⟩ := bind_ok _ _ _ _ hs
    exact ih r (inv_step l0 p r st h h1) h2

theorem closedInv_step (p q : Pipeline) (st : Step)
    (h : ClosedInv p) (hs : step p st = .ok q) : ClosedInv q := by
  have hrecv : ∀ p q, ClosedInv p → stepRecv p = .ok q → ClosedInv q := by
    intro p q ⟨ch, hch, hcl⟩ hs
    simp only [stepRecv] at hs
    cases hc : p.consumer <;> simp only [hc, hch] at hs <;> try (exact Outcome.noConfusion hs)
    split at hs
    · simp at hs
    · simp only [Outcome.ok.injEq] at hs
      subst hs
      exact ⟨_, rfl, hcl⟩
  have hincr : ∀ p q, ClosedInv p → stepIncr p = .ok q → ClosedInv q := by
    intro p q ⟨ch, hch, hcl⟩ hs
    simp only [stepIncr] at hs
    split at hs
    · simp only [Outcome.ok.injEq] at hs
      subst hs
      exact ⟨ch, hch, hcl⟩
    · simp at hs
  have hfpr : ∀ io p q, ClosedInv p → stepFprintf io p = .ok q → ClosedInv q := by
    intro io p q ⟨ch, hch, hcl⟩ hs
    simp only [stepFprintf] at hs
    split at hs
    · simp only [fprintfStep] at hs
      split at hs
      · simp only [Outcome.ok.injEq] at hs
        subst hs
        exact ⟨ch, hch, hcl⟩
      · split at hs
        · simp at hs
        · split at hs
          · simp only [Outcome.ok.injEq] at hs
            subst hs
            exact ⟨ch, hch, hcl⟩
          · simp at hs
    · simp at hs
  cases st with
  | recv => exact hrecv p q h hs
  | incr => exact hincr p q h hs
  | fprintf io => exact hfpr io p q h hs
  | write io =>
    obtain ⟨p1, p2, h1, h2, h3⟩ := stepWrite_ok io p q hs
    exact hfpr io p2 q (hincr p1 p2 (hrecv p p1 h h1) h2) h3
  | add e =>
    obtain ⟨ch, hch, hcl⟩ := h
    simp only [step, stepAdd, Outcome.ok.injEq] at hs
    subst hs
    exact ⟨ch, hch, hcl⟩
  | send i =>
    obtain ⟨ch, hch, hcl⟩ := h
    simp only [step, stepSend, hch] at hs
    split at hs
    · simp at hs
    · split at hs
      · simp at hs
      · split at hs
        · simp only [Outcome.ok.injEq] at hs
          subst hs
          exact ⟨_, rfl, hcl⟩
        · simp at hs
  | done =>
    obtain ⟨ch, hch, hcl⟩ := h
    simp only [step, stepDone] at hs
    split at hs
    · split at hs
      · simp at hs
      · simp only [Outcome.ok.injEq] at hs
        subst hs
        exact ⟨ch, hch, hcl⟩
    · simp at hs
  | rangeEnd =>
    obtain ⟨ch, hch, hcl⟩ := h
    simp only [step, stepRangeEnd] at hs
    split at hs
    · split at hs
      · simp only [Outcome.ok.injEq] at hs
        subst hs
        exact ⟨ch, hch, hcl⟩
      · simp at hs
    · simp at hs
  | closeWait =>
    obtain ⟨ch, hch, hcl⟩ := h
    simp only [step, stepCloseWait, Wait] at hs
    split at hs
    · split at hs
      · simp only [Outcome.bind, id, Outcome.ok.injEq] at hs
        subst hs
        exact ⟨ch, hch, fun h2 => by simp at h2⟩
      · simp [Outcome.bind] at hs
    · simp at hs
  | closeEvents =>
    obtain ⟨ch, hch, hcl⟩ := h
    simp only [step, stepCloseEvents, hch] at hs
    split at hs
    · split at hs
      · simp at hs
      · simp only [Outcome.ok.injEq] at hs
        subst hs
        exact ⟨_, rfl, fun _ => rfl⟩
    · simp at hs
  | closeFile =>
    obtain ⟨ch, hch, hcl⟩ := h
    simp only [step, stepCloseFile] at hs
    split at hs
    · rename_i h2
      simp only [Outcome.ok.injEq] at hs
      subst hs
      exact ⟨ch, hch, fun _ => hcl (by omega)⟩
    · simp at hs

theorem closedInv_exec (sched : List Step) (p q : Pipeline)
    (h : ClosedInv p) (hs : exec sched p = .ok q) : ClosedInv q := by
  induction sched generalizing p with
  | nil =>
    simp only [exec, Outcome.ok.injEq] at hs
    subst hs
    exact h
  | cons st ss ih =>
    simp only [exec] at hs
    obtain ⟨r, h1, h2⟩ := bind_ok _ _ _ _ hs
    exact ih r (closedInv_step p r st h h1) h2

theorem closedInv_Run (l : FileTransactionLogger) : ClosedInv (Run l) :=
  ⟨_, rfl, fun h => by simp [Run] at h⟩

/-- Once the consumer has stopped after a failed write, no step changes the
log file, the sequence number, the error channel or the count of records, or
restarts it. -/
theorem stopped_step (p q : Pipeline) (st : Step) (h : p.consumer = Consumer.stopped)
    (hs : step p st = .ok q) :
    q.consumer = Consumer.stopped ∧ q.l.file = p.l.file ∧ q.appended = p.appended ∧
      q.l.lastSequence = p.l.lastSequence ∧ q.l.errors = p.l.errors := by
  cases st with
  | recv => simp [step, stepRecv, h] at hs
  | incr => simp [step, stepIncr, h] at hs
  | fprintf io => simp [step, stepFprintf, h] at hs
  | write io => simp [step, stepWrite, stepRecv, h, Outcome.bind] at hs
  | add e =>
    simp only [step, stepAdd, Outcome.ok.injEq] at hs
    subst hs
    exact ⟨h, rfl, rfl, rfl, rfl⟩
  | send i =>
    simp only [step, stepSend] at hs
    split at hs
    · simp at hs
    · split at hs
      · simp at hs
      · split at hs
        · simp at hs
        · split at hs
          · simp only [Outcome.ok.injEq] at hs
            subst hs
            exact ⟨h, rfl, rfl, rfl, rfl⟩
          · simp at hs
  | done => simp [step, stepDone, h] at hs
  | rangeEnd => simp [step, stepRangeEnd, h] at hs
  | closeWait =>
    simp only [step, stepCloseWait, Wait] at hs
    split at hs
    · split at hs
      · simp only [Outcome.bind, id, Outcome.ok.injEq] at hs
        subst hs
        exact ⟨h, rfl, rfl, rfl, rfl⟩
      · simp [Outcome.bind] at hs
    · simp at hs
  | closeEvents =>
    simp only [step, stepCloseEvents] at hs
    split at hs
    · split at hs
      · simp only [Outcome.ok.injEq] at hs
        subst hs
        exact ⟨h, rfl, rfl, rfl, rfl⟩
      · split at hs
        · simp at hs
        · simp only [Outcome.ok.injEq] at hs
          subst hs
          exact ⟨h, rfl, rfl, rfl, rfl⟩
    · simp at hs
  | closeFile =>
    simp only [step, stepCloseFile] at hs
    split at hs
    · simp only [Outcome.ok.injEq] at hs
      subst hs
      exact ⟨h, rfl, rfl, rfl, rfl⟩
    · simp at hs

theorem stopped_exec (sched : List Step) (p q : Pipeline) (h : p.consumer = Consumer.stopped)
    (hs : exec sched p = .ok q) :
    q.consumer = Consumer.stopped ∧ q.l.file = p.l.file ∧ q.appended = p.appended ∧
      q.l.lastSequence = p.l.lastSequence ∧ q.l.errors = p.l.errors := by
  induction sched generalizing p with
  | nil =>
    simp only [exec, Outcome.ok.injEq] at hs
    subst hs
    exact ⟨h, rfl, rfl, rfl, rfl⟩
  | cons st ss ih =>
    simp only [exec] at hs
    obtain ⟨r, h1, h2⟩ := bind_ok _ _ _ _ hs
    obtain ⟨a1, a2, a3, a4, a5⟩ := stopped_step p r st h h1
    obtain ⟨b1, b2, b3, b4, b5⟩ := ih r a1 h2
    exact ⟨b1, b2.trans a2, b3.trans a3, b4.trans a4, b5.trans a5⟩

theorem drained_file (l : FileTransactionLogger) (sched : List Step) (p : Pipeline)
    (hl : l.wg = 0) (h : exec sched (Run l) = .ok p) (h0 : p.l.wg = 0) :
    p.appended = p.submitted ∧ p.enqueued.length = p.submitted ∧ p.sending = [] ∧
    p.l.file = l.file ++ records l.lastSequence p.enqueued := by
  obtain ⟨_, hdq, ⟨torn, hfile, ht1, _⟩, _, hwg, hsub, _⟩ := inv_exec l sched _ p (inv_Run l) h
  rw [hl, Nat.zero_add] at hwg
  simp only [Pipeline.dequeued] at hdq
  have h1 : p.appended = p.enqueued.length ∧ p.sending.length = 0 ∧
      ¬ (p.consumer.holding = true ∨ p.consumer = Consumer.stopped) := by
    split at hwg <;> split at hdq <;> refine ⟨by omega, by omega, ?_⟩ <;>
      first | assumption | omega
  have hns : p.consumer ≠ Consumer.stopped := fun hst => h1.2.2 (Or.inr hst)
  refine ⟨by omega, by omega, List.length_eq_zero.1 h1.2.1, ?_⟩
  rw [hfile, ht1 hns, h1.1, List.take_length, List.append_nil]

theorem readLoop_lastSequence (tooLong : Bool) (lines : List GoString) (last : Nat)
    (e : Event) :
    (readLoop tooLong lines last e).lastSequence =
      (((readLoop tooLong lines last e).events.getLast?).map Event.Sequence).getD last := by
  induction lines generalizing last e with
  | nil => simp [readLoop]
  | cons line rest ih =>
    simp only [readLoop]
    split
    · simp
    · split
      · simp
      · rename_i uv _
        simp only []
        rw [ih]
        cases hev : (readLoop tooLong rest (Sscanf line e).Sequence
            { Sequence := (Sscanf line e).Sequence, EventType := (Sscanf line e).EventType,
              Key := (Sscanf line e).Key, Value := uv }).events with
        | nil => simp
        | cons a as =>
          simp only [List.getLast?_cons_cons]
          rw [List.getLast?_eq_getLast _ (List.cons_ne_nil a as)]
          simp

theorem replayLoop_no_error (evs : List Event) (store : Store) :
    (replayLoop evs store).2 = none := by
  induction evs generalizing store with
  | nil => rfl
  | cons e es ih =>
    simp only [replayLoop, applyEvent, Delete, Put]
    split <;> rename_i h
    · exact ih _
    · exfalso
      revert h
      split
      · simp
      · split <;> simp

theorem readLoop_append (tl : Bool) (pre rest : List GoString) (last : Nat) (e : Event)
    (evs : List Event) (s : Nat) (h : readLoop false pre last e = ⟨evs, none, s⟩) :
    readLoop tl (pre ++ rest) last e =
      ⟨evs ++ (readLoop tl rest s (evs.getLast?.getD e)).events,
        (readLoop tl rest s (evs.getLast?.getD e)).error,
        (readLoop tl rest s (evs.getLast?.getD e)).lastSequence⟩ := by
  induction pre generalizing last e evs with
  | nil =>
    simp only [readLoop, Bool.false_eq_true, if_false, Replay.mk.injEq] at h
    obtain ⟨h1, _, h3⟩ := h
    subst h1 h3
    simp
  | cons line pre ih =>
    simp only [readLoop, List.cons_append] at h ⊢
    split at h
    · simp at h
    · rename_i hlt
      rw [if_neg hlt]
      split at h
      · simp at h
      · rename_i uv huv
        simp only [Replay.mk.injEq] at h
        obtain ⟨h1, h2, h3⟩ := h
        simp only [List.append_eq]
        cases hr : readLoop false pre (Sscanf line e).Sequence
            { Sequence := (Sscanf line e).Sequence, EventType := (Sscanf line e).EventType,
              Key := (Sscanf line e).Key, Value := uv } with
        | mk evs1 err1 s1 =>
          rw [hr] at h1 h2 h3
          simp only at h1 h2 h3
          subst h1 h2 h3
          rw [ih _ _ evs1 hr]
          simp only [List.cons_append, Replay.mk.injEq, List.cons.injEq, true_and]
          cases evs1 with
          | nil => simp
          | cons a as =>
            simp only [List.getLast?_cons_cons]
            rw [List.getLast?_eq_getLast _ (List.cons_ne_nil a as)]
            simp

theorem decDigits_spec (n : Nat) : ∀ fuel, n < fuel →
    decDigits fuel n ≠ [] ∧ (∀ d ∈ decDigits fuel n, 48 ≤ d ∧ d ≤ 57) ∧
    (∀ acc, parseDigits acc (decDigits fuel n) = some (acc * 10 ^ (decDigits fuel n).length + n)) ∧
    (∀ k, 0 < k → n < 10 ^ k → (decDigits fuel n).length ≤ k) := by
  induction n using Nat.strong_induction_on with
  | _ n ih =>
    intro fuel hf
    cases fuel with
    | zero => omega
    | succ fuel =>
      simp only [decDigits]
      by_cases h10 : n < 10
      · simp only [h10, if_true]
        refine ⟨by simp, ?_, ?_, ?_⟩
        · intro d hd
          simp only [List.mem_singleton] at hd
          omega
        · intro acc
          have h1 : 48 ≤ 48 + n ∧ 48 + n ≤ 57 := by omega
          simp only [parseDigits, h1, and_self, if_true, List.length_singleton, pow_one,
            Nat.add_sub_cancel_left]
        · intro k hk _
          simp only [List.length_singleton]
          omega
      · simp only [h10, if_false]
        have hlt : n / 10 < n := by omega
        obtain ⟨h1, h2, h3, h4⟩ := ih (n / 10) hlt fuel (by omega)
        refine ⟨by simp, ?_, ?_, ?_⟩
        · intro d hd
          simp only [List.mem_append, List.mem_singleton] at hd
          rcases hd with hd | hd
          · exact h2 d hd
          · omega
        · intro acc
          have hd : 48 ≤ 48 + n % 10 ∧ 48 + n % 10 ≤ 57 := by omega
          have happ : ∀ (ds : List Nat) (a : Nat) (d : Nat), parseDigits a (ds ++ [d]) =
              match parseDigits a ds with
              | none => none
              | some b => if 48 ≤ d ∧ d ≤ 57 then some (b * 10 + (d - 48)) else none := by
            intro ds
            induction ds with
            | nil => intro a d; simp [parseDigits]
            | cons c cs ihc =>
              intro a d
              simp only [List.cons_append, parseDigits]
              split
              · exact ihc _ _
              · rfl
          rw [happ, h3 acc]
          simp only [hd, and_self, if_true, Nat.add_sub_cancel_left, List.length_append,
            List.length_singleton, Option.some.injEq]
          rw [pow_succ]
          have : n = n / 10 * 10 + n % 10 := by omega
          nlinarith [this]
        · intro k hk hn
          simp only [List.length_append, List.length_singleton]
          cases k with
          | zero => omega
          | succ k =>
            cases k with
            | zero => simp at hn; omega
            | succ k =>
              have := h4 (k + 1) (by omega) (by
                rw [pow_succ] at hn
                omega)
              omega

theorem fmtUint_spec (n : Nat) :
    fmtUint n ≠ [] ∧ (∀ d ∈ fmtUint n, 48 ≤ d ∧ d ≤ 57) ∧
    parseDigits 0 (fmtUint n) = some n ∧
    (n < 2 ^ 64 → (fmtUint n).length ≤ 20) := by
  obtain ⟨h1, h2, h3, h4⟩ := decDigits_spec n (n + 1) (by omega)
  refine ⟨h1, h2, ?_, ?_⟩
  · have := h3 0
    simpa [fmtUint] using this
  · intro hn
    exact h4 20 (by omega) (by
      have : (2:Nat) ^ 64 ≤ 10 ^ 20 := by norm_num
      omega)

theorem decodeRune_encodeRune (r : Nat) (t : List Nat) (hv : validRune r = true) :
    decodeRune (encodeRune r ++ t) = some (r, t) := by
  simp only [validRune, Bool.or_eq_true, Bool.and_eq_true, decide_eq_true_eq] at hv
  unfold encodeRune
  split_ifs with h1 h2 h3 h4
  · simp [decodeRune, h1]
  · simp only [List.cons_append, List.nil_append, decodeRune]
    split_ifs <;> first | omega | (simp only [Option.some.injEq, Prod.mk.injEq, and_true]; omega)
  · omega
  · simp only [List.cons_append, List.nil_append, decodeRune]
    split_ifs <;> first | omega | (simp only [Option.some.injEq, Prod.mk.injEq, and_true]; omega)
  · simp only [List.cons_append, List.nil_append, decodeRune]
    split_ifs <;> first | omega | (simp only [Option.some.injEq, Prod.mk.injEq, and_true]; omega)

theorem encodeRune_bytes (r b : Nat) (hb : b ∈ encodeRune r) :
    (r < 0x80 ∧ b = r) ∨ 0x80 ≤ b := by
  unfold encodeRune at hb
  split_ifs at hb <;> simp only [List.mem_cons, List.mem_singleton, List.not_mem_nil, or_false] at hb
  · left; exact ⟨by assumption, hb⟩
  all_goals (right; omega)

theorem encodeRune_ne_nil (r : Nat) : encodeRune r ≠ [] := by
  unfold encodeRune
  split_ifs <;> simp

theorem encodeAll_nil : encodeAll [] = [] := rfl

theorem encodeAll_cons (r : Nat) (rs : List Nat) :
    encodeAll (r :: rs) = encodeRune r ++ encodeAll rs := by
  simp [encodeAll]

theorem encodeAll_append (a b : List Nat) : encodeAll (a ++ b) = encodeAll a ++ encodeAll b := by
  simp [encodeAll]

theorem encodeAll_ascii (ds : List Nat) (h : ∀ d ∈ ds, d < 0x80) : encodeAll ds = ds := by
  induction ds with
  | nil => rfl
  | cons d ds ih =>
    have hd : d < 0x80 := h d (List.mem_cons_self _ _)
    rw [encodeAll_cons, ih (fun x hx => h x (List.mem_cons_of_mem _ hx))]
    simp [encodeRune, hd]

theorem encodeAll_length (rs : List Nat) : rs.length ≤ (encodeAll rs).length := by
  induction rs with
  | nil => simp [encodeAll]
  | cons r rs ih =>
    rw [encodeAll_cons, List.length_append, List.length_cons]
    have : 0 < (encodeRune r).length := List.length_pos.2 (encodeRune_ne_nil r)
    omega

theorem decodeAllAux_encodeAll (rs : List Nat) (h : ∀ r ∈ rs, validRune r = true) :
    ∀ fuel, rs.length ≤ fuel → decodeAllAux fuel (encodeAll rs) = rs := by
  induction rs with
  | nil =>
    intro fuel _
    cases fuel <;> simp [decodeAllAux, encodeAll, decodeRune]
  | cons r rs ih =>
    intro fuel hf
    cases fuel with
    | zero => simp at hf
    | succ fuel =>
      rw [encodeAll_cons]
      simp only [decodeAllAux, decodeRune_encodeRune r _ (h r (List.mem_cons_self _ _))]
      rw [ih (fun x hx => h x (List.mem_cons_of_mem _ hx)) fuel (by simpa using hf)]

theorem decodeAll_encodeAll (rs : List Nat) (h : ∀ r ∈ rs, validRune r = true) :
    decodeAll (encodeAll rs) = rs :=
  decodeAllAux_encodeAll rs h _ (encodeAll_length rs)

theorem isSpace_false_ne (r : Nat) (h : isSpace r = false) : r ≠ 10 ∧ r ≠ 13 ∧ r ≠ 9 := by
  refine ⟨?_, ?_, ?_⟩ <;> (intro hr; subst hr; simp [isSpace] at h)

theorem isSpace_digit (d : Nat) (h : 48 ≤ d ∧ d ≤ 57) : isSpace d = false := by
  simp only [isSpace, Bool.or_eq_false_iff, Bool.and_eq_false_iff, decide_eq_false_iff_not,
    beq_eq_false_iff_ne, ne_eq]
  omega

theorem SkipSpace_of_not_space (r : Nat) (rs : List Nat) (h : isSpace r = false) :
    SkipSpace (r :: rs) = some (r :: rs) := by
  obtain ⟨h1, h2, _⟩ := isSpace_false_ne r h
  simp [SkipSpace, h1, h2, h]

theorem skipBlanks_of_not_space (r : Nat) (rs : List Nat) (h : isSpace r = false) :
    skipBlanks (r :: rs) = r :: rs := by
  simp [skipBlanks, h]

theorem acceptDigits_append (ds tail : List Nat) (hd : ∀ d ∈ ds, 48 ≤ d ∧ d ≤ 57)
    (ht : tail = [] ∨ ∃ t, tail = 9 :: t) : acceptDigits (ds ++ tail) = (ds, tail) := by
  induction ds with
  | nil =>
    rcases ht with rfl | ⟨t, rfl⟩
    · rfl
    · simp [acceptDigits]
  | cons d ds ih =>
    have h1 := hd d (List.mem_cons_self _ _)
    simp only [List.cons_append, acceptDigits, h1, and_self, if_true, List.append_eq]
    rw [ih (fun x hx => hd x (List.mem_cons_of_mem _ hx))]

theorem tokenRunes_append (w tail : List Nat) (hw : ∀ r ∈ w, isSpace r = false)
    (ht : tail = [] ∨ ∃ t, tail = 9 :: t) : tokenRunes (w ++ tail) = (encodeAll w, tail) := by
  induction w with
  | nil =>
    rcases ht with rfl | ⟨t, rfl⟩
    · rfl
    · simp [tokenRunes, isSpace, encodeAll]
  | cons r w ih =>
    have h1 := hw r (List.mem_cons_self _ _)
    simp only [List.cons_append, tokenRunes, h1, Bool.false_eq_true, if_false, List.append_eq]
    rw [ih (fun x hx => hw x (List.mem_cons_of_mem _ hx)), encodeAll_cons]

theorem verbUint_digits (bits n : Nat) (tail : List Nat) (hb : bits ≤ 64) (hn : n < 2 ^ bits)
    (ht : tail = [] ∨ ∃ t, tail = 9 :: t) :
    verbUint bits (fmtUint n ++ tail) = some (n, tail) := by
  obtain ⟨h1, h2, h3, _⟩ := fmtUint_spec n
  cases hf : fmtUint n with
  | nil => exact absurd hf h1
  | cons d ds =>
    rw [hf] at h2 h3
    have hd := h2 d (List.mem_cons_self _ _)
    have hsp := isSpace_digit d hd
    have hacc := acceptDigits_append (d :: ds) tail h2 ht
    simp only [List.cons_append] at hacc
    have hlt : n < 2 ^ 64 := lt_of_lt_of_le hn (Nat.pow_le_pow_right (by omega) hb)
    simp only [verbUint, List.cons_append, SkipSpace_of_not_space d _ hsp, scanUint, hacc,
      ParseUint, h3, hlt, hn, if_true, reduceCtorEq, if_false]

theorem advanceTab_tab (rest : List Nat)
    (h : rest = [] ∨ ∃ r rs, rest = r :: rs ∧ isSpace r = false) :
    advanceTab (9 :: rest) = some rest := by
  have h9 : isSpace 9 = true := by decide
  rcases h with rfl | ⟨r, rs, rfl, hr⟩
  · simp [advanceTab, h9, skipBlanks]
  · simp [advanceTab, h9, skipBlanks, hr]

theorem verbString_word (w tail : List Nat) (hne : w ≠ [])
    (hw : ∀ r ∈ w, isSpace r = false) (ht : tail = [] ∨ ∃ t, tail = 9 :: t) :
    verbString (w ++ tail) = some (encodeAll w, tail) := by
  cases w with
  | nil => exact absurd rfl hne
  | cons r rs =>
    have hr := hw r (List.mem_cons_self _ _)
    have htok := tokenRunes_append (r :: rs) tail hw ht
    simp only [List.cons_append] at htok
    simp only [verbString, convertString, List.cons_append, SkipSpace_of_not_space r _ hr, htok]

theorem verbString_nil : verbString [] = none := rfl

theorem recLine_eq_encodeAll (seq typ : Nat) (kr vr : List Nat) :
    fmtUint seq ++ [9] ++ fmtUint typ ++ [9] ++ encodeAll kr ++ [9] ++ encodeAll vr =
      encodeAll (lineRunes seq typ kr vr) := by
  have hd : ∀ n, encodeAll (fmtUint n) = fmtUint n := fun n =>
    encodeAll_ascii _ (fun d hd => by have := (fmtUint_spec n).2.1 d hd; omega)
  have h9 : ∀ l, encodeAll (9 :: l) = 9 :: encodeAll l := fun l => by
    rw [encodeAll_cons]; rfl
  simp only [lineRunes, encodeAll_append, hd, h9, List.append_assoc, List.cons_append,
    List.nil_append]

theorem validRune_of_lt (r : Nat) (h : r < 0x80) : validRune r = true := by
  simp only [validRune, Bool.or_eq_true, decide_eq_true_eq]
  left; omega

theorem Sscanf_record (seq typ : Nat) (kr vr : List Nat) (e0 : Event)
    (hseq : seq < 2 ^ 64) (htyp : typ < 2 ^ 8) (hkne : kr ≠ [])
    (hk : ∀ r ∈ kr, validRune r = true ∧ isSpace r = false)
    (hv : ∀ r ∈ vr, validRune r = true ∧ isSpace r = false) :
    Sscanf (fmtUint seq ++ [9] ++ fmtUint typ ++ [9] ++ encodeAll kr ++ [9] ++ encodeAll vr) e0 =
      ⟨seq, typ, encodeAll kr, if vr = [] then e0.Value else encodeAll vr⟩ := by
  have hvalid : ∀ r ∈ lineRunes seq typ kr vr, validRune r = true := by
    intro r hr
    simp only [lineRunes, List.mem_append, List.mem_cons] at hr
    rcases hr with hr | rfl | hr | rfl | hr | rfl | hr
    · exact validRune_of_lt r (by have := (fmtUint_spec seq).2.1 r hr; omega)
    · decide
    · exact validRune_of_lt r (by have := (fmtUint_spec typ).2.1 r hr; omega)
    · decide
    · exact (hk r hr).1
    · decide
    · exact (hv r hr).1
  rw [recLine_eq_encodeAll]
  unfold Sscanf
  rw [decodeAll_encodeAll _ hvalid]
  simp only [lineRunes]
  rw [verbUint_digits 64 seq _ (by omega) hseq (Or.inr ⟨_, rfl⟩)]
  simp only []
  obtain ⟨t1, t2, ht⟩ : ∃ t1 t2, fmtUint typ = t1 :: t2 := by
    cases h : fmtUint typ with
    | nil => exact absurd h (fmtUint_spec typ).1
    | cons a b => exact ⟨a, b, rfl⟩
  have ht1 : isSpace t1 = false :=
    isSpace_digit t1 ((fmtUint_spec typ).2.1 t1 (by rw [ht]; exact List.mem_cons_self _ _))
  rw [advanceTab_tab _ (Or.inr ⟨t1, _, by rw [ht]; rfl, ht1⟩)]
  simp only []
  rw [verbUint_digits 8 typ _ (by omega) htyp (Or.inr ⟨_, rfl⟩)]
  simp only []
  obtain ⟨k1, k2, hkr⟩ : ∃ k1 k2, kr = k1 :: k2 := by
    cases kr with
    | nil => exact absurd rfl hkne
    | cons a b => exact ⟨a, b, rfl⟩
  rw [advanceTab_tab _ (Or.inr ⟨k1, k2 ++ 9 :: vr, by rw [hkr]; rfl,
    (hk k1 (by rw [hkr]; exact List.mem_cons_self _ _)).2⟩)]
  simp only []
  rw [verbString_word kr _ hkne (fun r hr => (hk r hr).2) (Or.inr ⟨_, rfl⟩)]
  simp only []
  cases vr with
  | nil =>
    rw [advanceTab_tab _ (Or.inl rfl)]
    simp [verbString_nil]
  | cons v1 v2 =>
    rw [advanceTab_tab _ (Or.inr ⟨v1, v2, rfl, (hv v1 (List.mem_cons_self _ _)).2⟩)]
    simp only []
    have := verbString_word (v1 :: v2) [] (by simp) (fun r hr => (hv r hr).2) (Or.inl rfl)
    rw [List.append_nil] at this
    rw [this]
    simp

theorem goodEvent_of_ok (op : Op) (h : op.ok) : goodEvent op.event := by
  cases op with
  | put key value =>
    obtain ⟨⟨kr, hk1, hk2, hk3⟩, ⟨vr, _, hv2, hv3⟩, h37, h43, hlen⟩ := h
    exact ⟨Or.inr rfl, kr, vr, hk1, hk2, hv2, hk3, hv3, h37, h43, hlen⟩
  | delete key =>
    obtain ⟨⟨kr, hk1, hk2, hk3⟩, hlen⟩ := h
    refine ⟨Or.inl rfl, kr, [], hk1, hk2, ?_, hk3, rfl, ?_, ?_, ?_⟩
    · intro r hr; simp at hr
    · simp [Op.event, deleteEvent]
    · simp [Op.event, deleteEvent]
    · simpa [Op.event, deleteEvent] using hlen

theorem rawLines_append_line (l rest : List Nat) (h : 10 ∉ l) :
    rawLines (l ++ 10 :: rest) = l :: rawLines rest := by
  induction l with
  | nil => simp [rawLines]
  | cons b l ih =>
    have hb : b ≠ 10 := fun hb => h (by simp [hb])
    have hl : 10 ∉ l := fun hl => h (List.mem_cons_of_mem _ hl)
    simp only [List.cons_append, rawLines, hb, if_false, List.append_eq]
    rw [ih hl]

theorem plain_bytes (rs : List Nat) (h : plainRunes rs) (b : Nat) (hb : b ∈ encodeAll rs) :
    b ≠ 9 ∧ b ≠ 10 ∧ b ≠ 13 := by
  simp only [encodeAll, List.mem_flatten, List.mem_map] at hb
  obtain ⟨l, ⟨r, hr, rfl⟩, hbl⟩ := hb
  rcases encodeRune_bytes r b hbl with ⟨_, rfl⟩ | hge
  · obtain ⟨h1, h2, h3⟩ := isSpace_false_ne b (h b hr).2
    exact ⟨h3, h1, h2⟩
  · omega

theorem line_facts (seq : Nat) (e : Event) (hs : seq < 2 ^ 64) (he : goodEvent e) :
    (∀ b ∈ fmtUint seq ++ [9] ++ fmtUint e.EventType ++ [9] ++ e.Key ++ [9] ++ e.Value,
      b ≠ 10 ∧ b ≠ 13) ∧
    (fmtUint seq ++ [9] ++ fmtUint e.EventType ++ [9] ++ e.Key ++ [9] ++ e.Value).length
      ≤ maxLine := by
  obtain ⟨ht, kr, vr, _, hk, hv, hke, hve, _, _, hlen⟩ := he
  constructor
  · intro b hb
    simp only [List.mem_append, List.mem_singleton] at hb
    rcases hb with ((((((hb | hb) | hb) | hb) | hb) | hb) | hb)
    · have := (fmtUint_spec seq).2.1 b hb; omega
    · omega
    · have := (fmtUint_spec e.EventType).2.1 b hb; omega
    · omega
    · rw [hke] at hb
      have := plain_bytes kr hk b hb
      exact ⟨this.2.1, this.2.2⟩
    · omega
    · rw [hve] at hb
      have := plain_bytes vr hv b hb
      exact ⟨this.2.1, this.2.2⟩
  · have h1 := (fmtUint_spec seq).2.2.2 hs
    have h2 : (fmtUint e.EventType).length = 1 := by
      rcases ht with h | h <;> rw [h] <;> rfl
    simp only [List.length_append, List.length_singleton, maxLine]
    omega

theorem dropCR_of_not_mem (l : List Nat) (h : 13 ∉ l) : dropCR l = l := by
  unfold dropCR
  split
  · rename_i hl
    exact absurd (List.mem_of_getLast?_eq_some hl) h
  · rfl

theorem scanLines_records (es : List Event) : ∀ s, s + es.length < 2 ^ 64 →
    (∀ e ∈ es, goodEvent e) → scanLines (records s es) = (recLines s es, false) := by
  induction es with
  | nil => intro s _ _; rfl
  | cons e es ih =>
    intro s hs hg
    have hmod : (s + 1) % 2 ^ 64 = s + 1 := Nat.mod_eq_of_lt (by simp at hs; omega)
    obtain ⟨hb, hlen⟩ := line_facts (s + 1) e (by simp at hs; omega) (hg e (List.mem_cons_self _ _))
    have ih' := ih (s + 1) (by simp at hs ⊢; omega) (fun x hx => hg x (List.mem_cons_of_mem _ hx))
    simp only [scanLines] at ih' ⊢
    simp only [records, recLines, fmtRecord, hmod]
    rw [List.append_assoc _ [10] _, List.singleton_append, rawLines_append_line _ _
      (fun h => (hb 10 h).1 rfl)]
    simp only [scanTokens, ih', Nat.not_lt.2 hlen, if_false]
    rw [dropCR_of_not_mem _ (fun h => (hb 13 h).2 rfl)]

theorem QueryUnescape_clean (v : GoString) (h37 : 37 ∉ v) (h43 : 43 ∉ v) :
    QueryUnescape v = .ok v := by
  induction v with
  | nil => rfl
  | cons c v ih =>
    have hc1 : c ≠ 37 := fun h => h37 (by simp [h])
    have hc2 : c ≠ 43 := fun h => h43 (by simp [h])
    unfold QueryUnescape
    simp only [hc1, hc2, if_false]
    rw [ih (fun h => h37 (List.mem_cons_of_mem _ h)) (fun h => h43 (List.mem_cons_of_mem _ h))]

theorem encodeAll_eq_nil (rs : List Nat) : encodeAll rs = [] ↔ rs = [] := by
  constructor
  · intro h
    cases rs with
    | nil => rfl
    | cons r rs =>
      rw [encodeAll_cons] at h
      exact absurd (List.append_eq_nil.1 h).1 (encodeRune_ne_nil r)
  · rintro rfl; rfl

theorem readLoop_recLines (es : List Event) : ∀ (s : Nat) (e0 : Event),
    s + es.length < 2 ^ 64 → (∀ e ∈ es, goodEvent e) → 37 ∉ e0.Value → 43 ∉ e0.Value →
    readLoop false (recLines s es) s e0 = ⟨replayed e0.Value s es, none, s + es.length⟩ := by
  induction es with
  | nil => intro s e0 _ _ _ _; simp [readLoop, recLines, replayed]
  | cons e es ih =>
    intro s e0 hs hg h37 h43
    have hmod : (s + 1) % 2 ^ 64 = s + 1 := Nat.mod_eq_of_lt (by simp at hs; omega)
    obtain ⟨ht, kr, vr, hkne, hk, hv, hke, hve, hv37, hv43, hlen⟩ := hg e (List.mem_cons_self _ _)
    have hscan := Sscanf_record (s + 1) e.EventType kr vr e0 (by simp at hs; omega)
      (by rcases ht with h | h <;> rw [h] <;> norm_num) hkne hk hv
    rw [← hke, ← hve] at hscan
    have hif : (if vr = [] then e0.Value else e.Value) = (if e.Value = [] then e0.Value else e.Value) := by
      by_cases hvr : vr = []
      · simp [hvr, hve, encodeAll]
      · have : e.Value ≠ [] := by rw [hve]; exact fun h => hvr ((encodeAll_eq_nil vr).1 h)
        simp [hvr, this]
    rw [hif] at hscan
    have hclean : 37 ∉ (if e.Value = [] then e0.Value else e.Value) ∧
        43 ∉ (if e.Value = [] then e0.Value else e.Value) := by
      split <;> exact ⟨by assumption, by assumption⟩
    simp only [recLines, readLoop, hmod, hscan, ge_iff_le, Nat.not_succ_le_self, if_false,
      QueryUnescape_clean _ hclean.1 hclean.2, replayed]
    rw [ih (s + 1) _ (by simp at hs ⊢; omega) (fun x hx => hg x (List.mem_cons_of_mem _ hx))
      hclean.1 hclean.2]
    simp only [List.length_cons, Replay.mk.injEq, true_and]
    omega

theorem replayLoop_replayed (ops : List Op) : ∀ (v0 : GoString) (s : Nat) (store : Store),
    (∀ op ∈ ops, op.ok) →
    (replayLoop (replayed v0 s (ops.map Op.event)) store).1 = applyOps ops store := by
  induction ops with
  | nil => intro _ _ _ _; rfl
  | cons op ops ih =>
    intro v0 s store hok
    have ih' := fun v => ih v (s + 1) (applyOp store op) (fun x hx => hok x (List.mem_cons_of_mem _ hx))
    cases op with
    | put key value =>
      obtain ⟨_, ⟨vr, hvne, _, hv⟩, _⟩ := hok _ (List.mem_cons_self _ _)
      have hne : value ≠ [] := by rw [hv]; exact fun h => hvne ((encodeAll_eq_nil vr).1 h)
      simp only [List.map_cons, Op.event, putEvent, replayed, hne, if_false, replayLoop,
        applyEvent, EventPut, EventDelete, Put, applyOps, List.foldl_cons]
      simp only [OfNat.ofNat_ne_one, if_false, if_true]
      exact ih' value
    | delete key =>
      simp only [List.map_cons, Op.event, deleteEvent, replayed, if_true, replayLoop,
        applyEvent, EventDelete, Delete, applyOps, List.foldl_cons]
      exact ih' v0

theorem drainSchedule_exec (ops : List Op) : ∀ p, Quiescent p →
    ∃ q, exec (drainSchedule ops) p = .ok q ∧ Quiescent q ∧
      q.enqueued = p.enqueued ++ ops.map Op.event ∧ q.l.wg = p.l.wg := by
  induction ops with
  | nil => intro p hp; exact ⟨p, rfl, hp, by simp, rfl⟩
  | cons op ops ih =>
    intro p hp
    obtain ⟨h1, h2, h3, h4⟩ := hp
    obtain ⟨l, consumer, sending, closer, submitted, enqueued, appended⟩ := p
    obtain ⟨events, errors, lastSequence, file, fileClosed, wg⟩ := l
    simp only at h1 h2 h3 h4
    subst h1 h2 h3 h4
    obtain ⟨q, hq1, hq2, hq3, hq4⟩ := ih
      { l := ⟨some ⟨[], false⟩, errors, (lastSequence + 1) % 2 ^ 64,
            file ++ fmtRecord ((lastSequence + 1) % 2 ^ 64) op.event.EventType op.event.Key
              op.event.Value, false, wg⟩
        consumer := Consumer.receiving
        sending := []
        closer := closer
        submitted := submitted + 1
        enqueued := enqueued ++ [op.event]
        appended := appended + 1 } ⟨rfl, rfl, rfl, rfl⟩
    refine ⟨q, ?_, hq2, ?_, ?_⟩
    · rw [← hq1]
      simp [drainSchedule, exec, step, stepAdd, stepSend, stepWrite, stepRecv, stepIncr,
        stepFprintf, fprintfStep, stepDone, Outcome.bind]
    · rw [hq3]; simp
    · rw [hq4]

theorem isWord_of_plain (rs : List Nat) (h1 : rs ≠ []) (h2 : plainRunes rs) :
    isWord (encodeAll rs) := ⟨rs, h1, h2, rfl⟩

theorem scenario_replay :
    ReadEvents ⟨none, none, 0, scenarioLog, false, 0⟩ =
      ⟨[⟨1, EventPut, bytes "a", bytes "1"⟩, ⟨2, EventPut, bytes "b", bytes "2"⟩,
        ⟨3, EventDelete, bytes "a", bytes "2"⟩], none, 3⟩ := by
  decide

theorem replayLoop_snoc (evs : List Event) (e : Event) (store : Store) :
    (replayLoop (evs ++ [e]) store).1 = (applyEvent e (replayLoop evs store).1).1 := by
  induction evs generalizing store with
  | nil =>
    simp only [List.nil_append, replayLoop]
    split <;> rename_i h <;> simp [h]
  | cons a as ih =>
    simp only [List.cons_append, replayLoop]
    split
    · exact ih _
    · rename_i h
      have := replayLoop_no_error [a] store
      simp only [replayLoop, h] at this
      simp at this

theorem Sscanf_put_line (seq : Nat) (key value : GoString) (e0 : Event) (h64 : seq < 2 ^ 64)
    (hkey : isWord key) (hval : isWord value) :
    Sscanf (fmtUint seq ++ [9] ++ fmtUint EventPut ++ [9] ++ key ++ [9] ++ value) e0 =
      ⟨seq, EventPut, key, value⟩ := by
  obtain ⟨kr, hk1, hk2, rfl⟩ := hkey
  obtain ⟨vr, hv1, hv2, rfl⟩ := hval
  rw [Sscanf_record seq EventPut kr vr e0 h64 (by decide) hk1 hk2 hv2]
  simp [hv1]

/-- As long as the counter does not wrap, the records carry the numbers
`s + 1`, `s + 2`, ... -/
theorem records_eq_numbered (es : List Event) :
    ∀ s : Nat, s + es.length < 2 ^ 64 → records s es = numbered s es := by
  induction es with
  | nil => intro s _; rfl
  | cons e es ih =>
    intro s h
    simp only [List.length_cons] at h
    simp only [records, numbered]
    rw [Nat.mod_eq_of_lt (by omega), ih (s + 1) (by omega)]

theorem numbered_append (es : List Event) :
    ∀ (s : Nat) (fs : List Event),
      numbered s (es ++ fs) = numbered s es ++ numbered (s + es.length) fs := by
  induction es with
  | nil => intro s fs; simp [numbered]
  | cons e es ih =>
    intro s fs
    simp only [List.cons_append, numbered, List.append_assoc, List.length_cons, List.append_eq]
    rw [ih, show s + 1 + es.length = s + (es.length + 1) by omega]

/-- What a failing call of `fmt.Fprintf` in `Run` does to the state. -/
theorem stepFprintf_fail (io : Option (Nat × Nat)) (p q : Pipeline) (code n : Nat)
    (hs : stepFprintf io p = .ok q)
    (hfail : (if p.l.fileClosed then some (0, 0) else io) = some (code, n)) :
    ∃ e ech, p.consumer = Consumer.incremented e ∧ p.l.errors = some ech ∧ ech.buf = [] ∧
      q = { p with
        l := { p.l with
          file := p.l.file ++ (fmtRecord p.l.lastSequence e.EventType e.Key e.Value).take
            (min n ((fmtRecord p.l.lastSequence e.EventType e.Key e.Value).length - 1))
          errors := some { ech with buf := [GoError.writeFailure code] } }
        consumer := Consumer.stopped } := by
  simp only [stepFprintf] at hs
  cases hc : p.consumer <;> simp only [hc] at hs <;> try (exact Outcome.noConfusion hs)
  rename_i e
  simp only [fprintfStep, hfail] at hs
  cases he : p.l.errors with
  | none => simp [he] at hs
  | some ech =>
    simp only [he] at hs
    split at hs
    · rename_i hlt
      have hnil : ech.buf = [] := List.length_eq_zero.1 (by omega)
      simp only [Outcome.ok.injEq] at hs
      refine ⟨e, ech, rfl, rfl, hnil, ?_⟩
      rw [← hs, hnil]
      rfl
    · exact Outcome.noConfusion hs

/-- The steps `recv` and `incr` leave the file, its state and the history of
the channel as they are. -/
theorem stepRecv_frame (p q : Pipeline) (hs : stepRecv p = .ok q) :
    q.l.fileClosed = p.l.fileClosed ∧ q.appended = p.appended ∧ q.enqueued = p.enqueued := by
  simp only [stepRecv] at hs
  split at hs
  · split at hs
    · exact Outcome.noConfusion hs
    · simp only [Outcome.ok.injEq] at hs
      subst hs
      exact ⟨rfl, rfl, rfl⟩
  · exact Outcome.noConfusion hs

theorem stepIncr_frame (p q : Pipeline) (hs : stepIncr p = .ok q) :
    q.l.fileClosed = p.l.fileClosed ∧ q.appended = p.appended ∧ q.enqueued = p.enqueued := by
  simp only [stepIncr] at hs
  split at hs
  · simp only [Outcome.ok.injEq] at hs
    subst hs
    exact ⟨rfl, rfl, rfl⟩
  · exact Outcome.noConfusion hs

/-- The state of the pipeline right after a failed write, in terms of the
state `Run` started from. -/
theorem failed_write (l : FileTransactionLogger) (p q : Pipeline) (io : Option (Nat × Nat))
    (code n : Nat) (hp : Inv l p) (hs : stepFprintf io p = .ok q)
    (hfail : (if p.l.fileClosed then some (0, 0) else io) = some (code, n)) :
    ∃ e, p.enqueued[p.appended]? = some e ∧
      q.consumer = Consumer.stopped ∧
      (∃ ech, Err q.l = some ech ∧ ech.buf = [GoError.writeFailure code]) ∧
      q.enqueued = p.enqueued ∧ q.appended = p.appended ∧
      q.l.lastSequence = (l.lastSequence + (p.appended + 1)) % 2 ^ 64 ∧
      q.l.file = l.file ++ records l.lastSequence (p.enqueued.take p.appended) ++
        (fmtRecord q.l.lastSequence e.EventType e.Key e.Value).take
          (min n ((fmtRecord q.l.lastSequence e.EventType e.Key e.Value).length - 1)) ∧
      (∃ ch, q.l.events = some ch ∧ ch.buf = p.enqueued.drop (p.appended + 1)) := by
  obtain ⟨e, ech, hc, hech, hnil, hq⟩ := stepFprintf_fail io p q code n hs hfail
  obtain ⟨⟨ch, hch, hbuf⟩, hdq, ⟨torn, hfile, ht1, ht2⟩, hseq, hwg, hsub, _, hhold, hinc⟩ := hp
  have hlt : p.l.lastSequence < 2 ^ 64 := hinc (by rw [hc]; rfl)
  have hsq : p.l.lastSequence = (l.lastSequence + (p.appended + 1)) % 2 ^ 64 := by
    rw [← Nat.mod_eq_of_lt hlt, hseq]
    simp [Pipeline.increments, hc, Consumer.isIncremented]
  have hd : p.dequeued = p.appended + 1 := by
    simp [Pipeline.dequeued, hc, Consumer.holding]
  have htorn : torn = [] := ht1 (by rw [hc]; exact Consumer.noConfusion)
  subst hq
  refine ⟨e, hhold e (Or.inr hc), rfl, ⟨_, rfl, rfl⟩, rfl, rfl, hsq, ?_, ⟨ch, hch, ?_⟩⟩
  · show p.l.file ++ _ = _
    rw [hfile, htorn, List.append_nil]
  · rw [hbuf, hd]

theorem applyEvent_no_error (e : Event) (store : Store) : (applyEvent e store).2 = none := by
  have h := replayLoop_no_error [e] store
  simp only [replayLoop] at h
  split at h <;> rename_i h1
  · rw [h1]
  · simp at h

theorem rexec_append (pre post : List RStep) (st : Recovery) :
    rexec (pre ++ post) st = (rexec pre st).bind (rexec post) := by
  induction pre generalizing st with
  | nil => rfl
  | cons s ss ih =>
    simp only [List.cons_append, rexec]
    cases rstep st s with
    | none => rfl
    | some st1 => exact ih st1

theorem rinv_init (contents : GoString) (store : Store) :
    RInv (ReadEvents ⟨none, none, 0, contents, false, 0⟩) store
      (Recovery.init contents store) :=
  ⟨[], rfl, rfl, rfl, rfl, rfl, rfl, rfl, rfl⟩

theorem rinv_step (R : Replay) (store0 : Store) (st st1 : Recovery) (s : RStep)
    (h : RInv R store0 st) (hs : rstep st s = some st1) : RInv R store0 st1 := by
  obtain ⟨applied, hstore, hm⟩ := h
  cases s with
  | read =>
    simp only [rstep] at hs
    cases hr : st.reader <;> simp only [hr] at hs hm <;> try (exact Option.noConfusion hs)
    obtain ⟨hok, herr, hout, hcl, hev, her, hls⟩ := hm
    cases hl : st.lines with
    | nil =>
      simp only [hl, readLoop, List.append_nil] at hs hev her hls
      refine ⟨applied, ?_, ?_⟩
      · split at hs <;> (simp only [Option.some.injEq] at hs; subst hs; exact hstore)
      · split at hs <;> rename_i htl <;> simp only [Option.some.injEq] at hs <;> subst hs
        · simp only [Recovery.fail]
          refine ⟨hev, hls, Or.inl ⟨herr, ?_⟩⟩
          simp [hout, her, htl]
        · refine ⟨hev, hls, Or.inl ⟨herr, ?_⟩⟩
          simp [hout, her, htl]
    | cons line rest =>
      simp only [hl, readLoop] at hs hev her hls
      split at hs
      · rename_i hge
        simp only [hge, if_true] at hev her hls
        simp only [Option.some.injEq] at hs
        subst hs
        refine ⟨applied, hstore, ?_⟩
        simp only [Recovery.fail]
        refine ⟨by simpa using hev, hls, Or.inl ⟨herr, ?_⟩⟩
        simp [hout, her]
      · rename_i hge
        simp only [hge, if_false] at hev her hls
        split at hs <;> rename_i hq <;> simp only [hq] at hev her hls <;>
          simp only [Option.some.injEq] at hs <;> subst hs
        · refine ⟨applied, hstore, ?_⟩
          simp only [Recovery.fail]
          refine ⟨by simpa using hev, hls, Or.inl ⟨herr, ?_⟩⟩
          simp [hout, her]
        · exact ⟨applied, hstore, hok, herr, hout, hcl, hev, her, hls⟩
  | closeError =>
    simp only [rstep] at hs
    cases hr : st.reader <;> simp only [hr] at hs hm <;> try (exact Option.noConfusion hs)
    simp only [Option.some.injEq] at hs
    subst hs
    exact ⟨applied, hstore, hm⟩
  | closeEvent =>
    simp only [rstep] at hs
    cases hr : st.reader <;> simp only [hr] at hs hm <;> try (exact Option.noConfusion hs)
    simp only [Option.some.injEq] at hs
    subst hs
    exact ⟨applied, hstore, hm⟩
  | recvEvent =>
    simp only [rstep] at hs
    cases hr : st.reader <;> simp only [hr] at hs hm <;> try (exact Option.noConfusion hs)
    rename_i ev
    obtain ⟨hok, herr, hout, hcl, hev, her, hls⟩ := hm
    simp only [hok, herr, and_self, if_true, Option.some.injEq] at hs
    subst hs
    refine ⟨applied ++ [ev], ?_, rfl, applyEvent_no_error _ _, hout, hcl, ?_, her, hls⟩
    · show (applyEvent ev st.store).1 = _
      rw [replayLoop_snoc, hstore]
    · simpa using hev
  | recvClosedEvent =>
    simp only [rstep] at hs
    split at hs
    · rename_i hc
      simp only [Option.some.injEq] at hs
      subst hs
      cases hr : st.reader <;> simp only [hr] at hm
      · exact absurd hc.2.2 (by simp [hm.2.2.2.1])
      · exact absurd hc.2.2 (by simp [hm.2.2.2.1])
      all_goals
        refine ⟨applied, hstore, ?_⟩
        simp only [hr]
        exact hm
    · exact Option.noConfusion hs
  | recvError =>
    simp only [rstep] at hs
    cases hb : st.outError.buf with
    | nil => simp [hb] at hs
    | cons x rest =>
      simp only [hb] at hs
      split at hs
      · rename_i hc
        simp only [Option.some.injEq] at hs
        subst hs
        cases hr : st.reader <;> simp only [hr] at hm
        · simp [hm.2.2.1] at hb
        · simp [hm.2.2.1] at hb
        all_goals
          refine ⟨applied, hstore, ?_⟩
          simp only [hr]
          refine ⟨hm.1, hm.2.1, Or.inr ?_⟩
          rcases hm.2.2 with ⟨_, hbuf⟩ | ⟨_, _, hbuf⟩
          · rw [hb] at hbuf
            cases hR : R.error with
            | none => simp [hR] at hbuf
            | some y =>
              simp only [hR, Option.toList, List.cons.injEq] at hbuf
              exact ⟨by rw [hbuf.1], by simp, hbuf.2⟩
          · simp [hb] at hbuf
      · exact Option.noConfusion hs
  | recvClosedError =>
    simp only [rstep] at hs
    split at hs
    · rename_i hc
      simp only [Option.some.injEq] at hs
      subst hs
      cases hr : st.reader <;> simp only [hr] at hm
      · exact absurd hc.2.2.1 (by simp [hm.2.2.1])
      · exact absurd hc.2.2.1 (by simp [hm.2.2.1])
      all_goals
        refine ⟨applied, hstore, ?_⟩
        simp only [hr]
        refine ⟨hm.1, hm.2.1, Or.inl ⟨trivial, ?_⟩⟩
        rcases hm.2.2 with ⟨_, hbuf⟩ | ⟨h1, h2, _⟩
        · exact hbuf
        · exact absurd hc.2.1 h2
    · exact Option.noConfusion hs

theorem rinv_exec (R : Replay) (store0 : Store) (sched : List RStep) (st st1 : Recovery)
    (h : RInv R store0 st) (hs : rexec sched st = some st1) : RInv R store0 st1 := by
  induction sched generalizing st with
  | nil =>
    simp only [rexec, Option.some.injEq] at hs
    subst hs
    exact h
  | cons s ss ih =>
    simp only [rexec] at hs
    cases h1 : rstep st s with
    | none => simp [h1] at hs
    | some st2 =>
      simp only [h1] at hs
      exact ih st2 (rinv_step R store0 st st2 s h h1) hs

theorem rinv_ended (R : Replay) (store0 : Store) (st : Recovery) (h : RInv R store0 st)
    (hend : st.loopEnded = true) :
    st.reader.pastLoop = true ∧ st.store = (replayLoop R.events store0).1 ∧
      st.lastSequence = R.lastSequence ∧ (R.error = none → st.err = none) ∧
      (st.err = none ∨ st.err = R.error) := by
  obtain ⟨applied, hstore, hm⟩ := h
  simp only [Recovery.loopEnded, Bool.or_eq_true, Bool.not_eq_true', Option.isSome_iff_ne_none]
    at hend
  cases hr : st.reader <;> simp only [hr] at hm
  · rcases hend with h1 | h1
    · simp [hm.1] at h1
    · exact absurd hm.2.1 h1
  · rcases hend with h1 | h1
    · simp [hm.1] at h1
    · exact absurd hm.2.1 h1
  all_goals
    refine ⟨rfl, by rw [hstore, hm.1], hm.2.1.symm, ?_, ?_⟩
    · intro hR
      rcases hm.2.2 with ⟨h1, _⟩ | ⟨h1, h2, _⟩
      · exact h1
      · rw [h1, hR]
    · rcases hm.2.2 with ⟨h1, _⟩ | ⟨h1, _, _⟩
      · exact Or.inl h1
      · exact Or.inr h1

/-- A step `recvError` hands the loop the error of the replay. -/
theorem rinv_recvError (R : Replay) (store0 : Store) (st st1 : Recovery) (h : RInv R store0 st)
    (hs : rstep st RStep.recvError = some st1) :
    st1.err = R.error ∧ st1.err ≠ none ∧ st1.loopEnded = true := by
  have h1 := rinv_step R store0 st st1 _ h hs
  obtain ⟨applied, hstore, hm⟩ := h1
  have hne : st1.err ≠ none := by
    simp only [rstep] at hs
    split at hs
    · split at hs
      · simp only [Option.some.injEq] at hs
        subst hs
        simp
      · exact Option.noConfusion hs
    · exact Option.noConfusion hs
  refine ⟨?_, hne, ?_⟩
  · cases hr : st1.reader <;> simp only [hr] at hm
    · exact absurd hm.2.1 hne
    · exact absurd hm.2.1 hne
    all_goals
      rcases hm.2.2 with ⟨h1, _⟩ | ⟨h1, _, _⟩
      · exact absurd h1 hne
      · exact h1
  · simp only [Recovery.loopEnded, Bool.or_eq_true, Bool.not_eq_true', Option.isSome_iff_ne_none]
    exact Or.inr hne

/-- From every state in which the goroutine is at the head of its loop and
the loop of `initializeTransactionLog` runs, some schedule ends the loop
with the error of the replay (or none) in `err`. -/
theorem rexec_complete (lines : List GoString) : ∀ st : Recovery,
    st.reader = Reader.scanning → st.lines = lines → st.ok = true → st.err = none →
    st.outError = ⟨[], false⟩ →
    ∃ sched st1, rexec sched st = some st1 ∧ st1.loopEnded = true ∧
      st1.err = (readLoop st.tooLong lines st.lastSequence st.e).error := by
  induction lines with
  | nil =>
    intro st hr hl hok herr hout
    cases htl : st.tooLong with
    | true =>
      refine ⟨[.read, .recvError], ?_⟩
      simp only [rexec, rstep, hr, hl, htl, if_true, Recovery.fail, hout, List.nil_append, hok,
        herr, and_self]
      exact ⟨_, rfl, rfl, rfl⟩
    | false =>
      refine ⟨[.read, .closeError, .recvClosedError], ?_⟩
      simp only [rexec, rstep, hr, hl, htl, hout, hok, herr, and_self, if_true]
      exact ⟨_, rfl, rfl, rfl⟩
  | cons line rest ih =>
    intro st hr hl hok herr hout
    simp only [readLoop]
    split
    · rename_i hge
      refine ⟨[.read, .recvError], ?_⟩
      simp only [rexec, rstep, hr, hl, hge, if_true, Recovery.fail, hout, List.nil_append, hok,
        herr, and_self]
      exact ⟨_, rfl, rfl, rfl⟩
    · rename_i hge
      split
      · rename_i esc hq
        refine ⟨[.read, .recvError], ?_⟩
        simp only [rexec, rstep, hr, hl, hge, if_false, hq, Recovery.fail, hout, List.nil_append,
          hok, herr, and_self, if_true]
        exact ⟨_, rfl, rfl, rfl⟩
      · rename_i uv hq
        obtain ⟨sched, st1, h1, h2, h3⟩ := ih
          { st with
            lines := rest
            e := { Sscanf line st.e with Value := uv }
            lastSequence := (Sscanf line st.e).Sequence
            store := (applyEvent { Sscanf line st.e with Value := uv } st.store).1
            err := (applyEvent { Sscanf line st.e with Value := uv } st.store).2
            ok := true
            reader := Reader.scanning } rfl rfl rfl (applyEvent_no_error _ _) hout
        refine ⟨.read :: .recvEvent :: sched, st1, ?_, h2, h3⟩
        simp only [rexec, rstep, hr, hl, hge, if_false, hq, hok, herr, and_self, if_true]
        exact h1

/-- Every complete run of `initializeTransactionLog` under a schedule ends as
the function `initializeTransactionLog` says, for one of the two values of
`pickError`. -/
theorem initializeTransactionLogSched_sound (contents : Option GoString) (store : Store)
    (sched : List RStep) (b : Boot)
    (h : initializeTransactionLogSched contents store sched = some b) :
    ∃ pick, b = initializeTransactionLog contents store pick := by
  cases contents with
  | none =>
    simp only [initializeTransactionLogSched, NewFileTransactionLogger, Option.some.injEq] at h
    exact ⟨true, h.symm⟩
  | some c =>
    simp only [initializeTransactionLogSched, NewFileTransactionLogger] at h
    cases hx : rexec sched (Recovery.init c store) with
    | none => simp [hx] at h
    | some st =>
      simp only [hx] at h
      split at h
      · rename_i hend
        simp only [Option.some.injEq] at h
        subst h
        have hinv := rinv_exec _ store sched _ st (rinv_init c store) hx
        obtain ⟨_, h2, h3, _, h5⟩ := rinv_ended _ store st hinv hend
        rcases h5 with h5 | h5
        · refine ⟨false, ?_⟩
          simp only [Recovery.finish, initializeTransactionLog, NewFileTransactionLogger,
            replayLoop_no_error, h2, h3, h5]
          rfl
        · refine ⟨true, ?_⟩
          simp only [Recovery.finish, initializeTransactionLog, NewFileTransactionLogger,
            replayLoop_no_error, h2, h3, h5]
          rfl
      · exact Option.noConfusion h

/-- Values are percent-decoded on replay: let a line of
the log be a Put record, `seq TAB 2 TAB key TAB value`, whose key and value
field are non-empty UTF-8 strings without white space, whose value field
percent-decodes to `uv`, and whose sequence number is greater than the highest
one `s` of the lines before it, which replay without error. Then `ReadEvents`
emits for it the event with the decoded value `uv`, and applying the events up
to this one leaves `uv` under `key`; when the record is the last line of the
log, `initializeTransactionLog` returns nil and leaves `Get(key) == (uv, nil)`. -/
theorem put_record_decoded (contents : GoString) (pre post : List GoString) (evs : List Event)
    (s seq : Nat) (key value uv : GoString) (store : Store) (pick : Bool)
    (hlines : (scanLines contents).1 =
      pre ++ (fmtUint seq ++ [9] ++ fmtUint EventPut ++ [9] ++ key ++ [9] ++ value) :: post)
    (hpre : readLoop false pre 0 Event.zero = ⟨evs, none, s⟩)
    (hs : s < seq) (h64 : seq < 2 ^ 64) (hkey : isWord key) (hval : isWord value)
    (hdec : QueryUnescape value = .ok uv) :
    (ReadEvents ⟨none, none, 0, contents, false, 0⟩).events.take (evs.length + 1) =
      evs ++ [⟨seq, EventPut, key, uv⟩] ∧
    Get key (replayLoop (evs ++ [⟨seq, EventPut, key, uv⟩]) store).1 = (uv, none) ∧
    (post = [] → (scanLines contents).2 = false →
      (initializeTransactionLog (some contents) store pick).err = none ∧
      Get key (initializeTransactionLog (some contents) store pick).store = (uv, none)) := by
  have hget : Get key (replayLoop (evs ++ [⟨seq, EventPut, key, uv⟩]) store).1 = (uv, none) := by
    rw [replayLoop_snoc]
    simp [applyEvent, EventPut, EventDelete, Put, Get]
  have hread : ∀ tl, readLoop tl
      ((fmtUint seq ++ [9] ++ fmtUint EventPut ++ [9] ++ key ++ [9] ++ value) :: post) s
        (evs.getLast?.getD Event.zero) =
      ⟨⟨seq, EventPut, key, uv⟩ :: (readLoop tl post seq ⟨seq, EventPut, key, uv⟩).events,
        (readLoop tl post seq ⟨seq, EventPut, key, uv⟩).error,
        (readLoop tl post seq ⟨seq, EventPut, key, uv⟩).lastSequence⟩ := by
    intro tl
    simp only [readLoop, Sscanf_put_line seq key value _ h64 hkey hval, ge_iff_le,
      Nat.not_le.2 hs, if_false, hdec]
  have hall : ReadEvents ⟨none, none, 0, contents, false, 0⟩ =
      ⟨evs ++ ⟨seq, EventPut, key, uv⟩ ::
          (readLoop (scanLines contents).2 post seq ⟨seq, EventPut, key, uv⟩).events,
        (readLoop (scanLines contents).2 post seq ⟨seq, EventPut, key, uv⟩).error,
        (readLoop (scanLines contents).2 post seq ⟨seq, EventPut, key, uv⟩).lastSequence⟩ := by
    simp only [ReadEvents, hlines]
    rw [readLoop_append _ pre _ 0 Event.zero evs s hpre, hread]
  refine ⟨?_, hget, ?_⟩
  · rw [hall]
    simp [List.take_append_eq_append_take]
  · intro hpost htl
    subst hpost
    rw [htl] at hall
    simp only [readLoop, Bool.false_eq_true, if_false] at hall
    constructor
    · show (match (replayLoop (ReadEvents ⟨none, none, 0, contents, false, 0⟩).events store).2 with
        | some e => some e
        | none => if pick then (ReadEvents ⟨none, none, 0, contents, false, 0⟩).error
          else none) = none
      rw [replayLoop_no_error, hall]
      simp
    · show Get key (replayLoop (ReadEvents ⟨none, none, 0, contents, false, 0⟩).events store).1 = _
      rw [hall]
      exact hget

/-- Example: the single record `1 TAB 2 TAB x TAB hello%20world`. -/
theorem put_record_decoded_example :
    (initializeTransactionLog (some (bytes "1\t2\tx\thello%20world\n")) emptyStore true).err =
      none ∧
    Get (bytes "x")
        (initializeTransactionLog (some (bytes "1\t2\tx\thello%20world\n")) emptyStore true).store =
      (bytes "hello world", none) :=
  (put_record_decoded (bytes "1\t2\tx\thello%20world\n") [] [] [] 0 1 (bytes "x")
    (bytes "hello%20world") (bytes "hello world") emptyStore true (by decide) (by decide)
    (by decide) (by decide)
    (isWord_of_plain (bytes "x") (by decide) (by unfold plainRunes; decide))
    (isWord_of_plain (bytes "hello%20world") (by decide) (by unfold plainRunes; decide))
    (by decide)).2.2 rfl (by decide)

/-! ## The claims -/

/-- Claim C1, counterexample. `Put("a b", "1")` leaves the store with the
single entry `"a b" -> "1"`; the record the writer appends for it is
`1 TAB 2 TAB a b TAB 1`, which `Sscanf` reads back as key `a` and value `b`,
so the replayed store has no entry for `"a b"`. Likewise `Put("a", "1")`
followed by `Put("b", "")` is replayed with `"b" -> "1"`: the empty value
field leaves the value of the record before in place. -/
theorem C1_key_with_space_not_replayed :
    (exec (drainSchedule [.put (bytes "a b") (bytes "1")]) (Run freshLogger)).state?.map
        (fun q => q.l.file) = some (bytes "1\t2\ta b\t1\n") ∧
    (initializeTransactionLog (some (bytes "1\t2\ta b\t1\n")) emptyStore true).err = none ∧
    Get (bytes "a b")
        (initializeTransactionLog (some (bytes "1\t2\ta b\t1\n")) emptyStore true).store =
      ([], some GoError.noSuchKey) ∧
    Get (bytes "a b") (applyOps [.put (bytes "a b") (bytes "1")] emptyStore) =
      (bytes "1", none) ∧
    (exec (drainSchedule [.put (bytes "a") (bytes "1"), .put (bytes "b") []])
        (Run freshLogger)).state?.map (fun q => q.l.file) =
      some (bytes "1\t2\ta\t1\n2\t2\tb\t\n") ∧
    Get (bytes "b")
        (initializeTransactionLog (some (bytes "1\t2\ta\t1\n2\t2\tb\t\n")) emptyStore true).store =
      (bytes "1", none) ∧
    Get (bytes "b") (applyOps [.put (bytes "a") (bytes "1"), .put (bytes "b") []] emptyStore) =
      ([], none) := by
  decide

/-- Claim C1, amended. Replay fidelity for the operations the text format can
carry: take fewer than 2^64 operations in which every key is the UTF-8
encoding of a non-empty sequence of code points without white space, every
value of a Put is such an encoding too and contains neither `%` nor `+`, and
key and value together have at most 65511 bytes. When they are submitted in
this order to a fresh log and the pipeline has drained (the counter is zero),
replaying the file with `initializeTransactionLog` against an empty store
returns no error and yields exactly the store the operations produce from the
empty store. Such a run of the pipeline exists for every sequence of
operations. -/
theorem C1_replay_fidelity (ops : List Op) (sched : List Step) (p : Pipeline) (pick : Bool)
    (hok : ∀ op ∈ ops, op.ok) (hlen : ops.length < 2 ^ 64)
    (h : exec sched (Run freshLogger) = .ok p) (henq : p.enqueued = ops.map Op.event)
    (hwait : p.l.wg = 0) :
    (initializeTransactionLog (some p.l.file) emptyStore pick).err = none ∧
    (initializeTransactionLog (some p.l.file) emptyStore pick).store =
      applyOps ops emptyStore ∧
    ∃ q, exec (drainSchedule ops) (Run freshLogger) = .ok q ∧
      q.enqueued = ops.map Op.event ∧ q.l.wg = 0 := by
  obtain ⟨_, _, _, hfile⟩ := drained_file freshLogger sched p rfl h hwait
  have hgood : ∀ e ∈ ops.map Op.event, goodEvent e := by
    intro e he
    obtain ⟨op, hop, rfl⟩ := List.mem_map.1 he
    exact goodEvent_of_ok op (hok op hop)
  have hl : 0 + (ops.map Op.event).length < 2 ^ 64 := by simpa using hlen
  have hf : p.l.file = records 0 (ops.map Op.event) := by
    rw [hfile, henq]; rfl
  have hread : ReadEvents ⟨none, none, 0, p.l.file, false, 0⟩ =
      ⟨replayed [] 0 (ops.map Op.event), none, 0 + (ops.map Op.event).length⟩ := by
    simp only [ReadEvents, hf, scanLines_records _ 0 hl hgood]
    exact readLoop_recLines _ 0 Event.zero hl hgood (by simp [Event.zero]) (by simp [Event.zero])
  refine ⟨?_, ?_, ?_⟩
  · simp only [initializeTransactionLog, NewFileTransactionLogger, hread, replayLoop_no_error]
    simp
  · simp only [initializeTransactionLog, NewFileTransactionLogger, hread]
    exact replayLoop_replayed ops [] 0 emptyStore hok
  · obtain ⟨q, hq1, _, hq3, hq4⟩ := drainSchedule_exec ops (Run freshLogger) ⟨rfl, rfl, rfl, rfl⟩
    exact ⟨q, hq1, by simpa [Run] using hq3, by simpa [Run, freshLogger] using hq4⟩

/-- Instance of C1: `Put("a","1")`, `Put("b","2")`, `Delete("a")` on a fresh
log, each drained before the next. -/
theorem C1_replay_fidelity_witness :
    (initializeTransactionLog
        (some (after (drainSchedule exampleOps) (Run freshLogger)).l.file) emptyStore true).store =
      applyOps exampleOps emptyStore :=
  (C1_replay_fidelity exampleOps (drainSchedule exampleOps)
    (after (drainSchedule exampleOps) (Run freshLogger)) true
    (by
      intro op hop
      simp only [exampleOps, List.mem_cons, List.mem_singleton, List.not_mem_nil, or_false] at hop
      rcases hop with rfl | rfl | rfl
      · exact ⟨isWord_of_plain [97] (by decide) (by unfold plainRunes; decide),
          isWord_of_plain [49] (by decide) (by unfold plainRunes; decide),
          by decide, by decide, by decide⟩
      · exact ⟨isWord_of_plain [98] (by decide) (by unfold plainRunes; decide),
          isWord_of_plain [50] (by decide) (by unfold plainRunes; decide),
          by decide, by decide, by decide⟩
      · exact ⟨isWord_of_plain [97] (by decide) (by unfold plainRunes; decide), by decide⟩)
    (by decide) (by decide) (by decide) (by decide)).2.1

/-- Claim C2, counterexample. A log whose only record carries the sequence
number 2^64 - 1 replays without error, and the first event written after it
gets the sequence number 0, not 2^64: `l.lastSequence++` wraps. -/
theorem C2_sequence_wraps :
    (initializeTransactionLog (some (bytes "18446744073709551615\t2\tk\tv\n"))
        emptyStore true).err = none ∧
    (initializeTransactionLog (some (bytes "18446744073709551615\t2\tk\tv\n"))
        emptyStore true).logger.map (fun p => p.l.lastSequence) = some 18446744073709551615 ∧
    (initializeTransactionLog (some (bytes "18446744073709551615\t2\tk\tv\n"))
        emptyStore true).logger.map
      (fun p => (exec [.add (putEvent (bytes "a") (bytes "b")), .send 0, .write none, .done]
        p).state?.map (fun q => q.l.file)) =
      some (some (bytes "18446744073709551615\t2\tk\tv\n0\t2\ta\tb\n")) := by
  decide

/-- Claim C2, amended. The consumer started by `Run` on a logger with
`lastSequence = s` writes the k-th event it dequeues with sequence number
`s + k`, as long as `s + k < 2^64`: in every state reached in which the events
dequeued so far are fewer than `2^64 - s`, the file is the file `Run` found
followed by the records of the events written so far, numbered `s + 1`,
`s + 2`, ... in the order they were put on the channel; only after a failed
write, which stops the consumer, these are followed by a part of the record of
the next event, with the next number. `s` is 0 for a fresh log, and after a
replay it is the sequence number of the last event the replay emitted (0 if
none); a replay without error emits one event per line of the log. -/
theorem C2_sequence_assignment (l : FileTransactionLogger) (sched : List Step)
    (p : Pipeline) (contents : GoString) (store : Store) (pick : Bool)
    (h : exec sched (Run l) = .ok p)
    (hno : l.lastSequence + p.dequeued < 2 ^ 64) :
    (∃ torn, p.l.file = l.file ++ numbered l.lastSequence (p.enqueued.take p.appended) ++ torn ∧
      (p.consumer ≠ Consumer.stopped → torn = []) ∧
      (p.consumer = Consumer.stopped → ∃ e n, p.enqueued[p.appended]? = some e ∧
        torn = (fmtRecord (l.lastSequence + (p.appended + 1)) e.EventType e.Key e.Value).take n)) ∧
    (∀ (s : Nat) (es : List Event) (e : Event),
      numbered s (es ++ [e]) = numbered s es ++
        fmtRecord (s + (es.length + 1)) e.EventType e.Key e.Value) ∧
    (initializeTransactionLog (some []) store pick).logger.map (fun q => q.l.lastSequence)
      = some 0 ∧
    (initializeTransactionLog (some contents) store pick).logger.map
        (fun q => q.l.lastSequence) =
      some ((((ReadEvents ⟨none, none, 0, contents, false, 0⟩).events.getLast?).map
        Event.Sequence).getD 0) ∧
    ((ReadEvents ⟨none, none, 0, contents, false, 0⟩).error = none →
      (ReadEvents ⟨none, none, 0, contents, false, 0⟩).events.length =
        (scanLines contents).1.length) := by
  refine ⟨?_, ?_, ?_, ?_, ?_⟩
  · obtain ⟨_, hdq, ⟨torn, hfile, ht1, ht2⟩, _⟩ := inv_exec l sched _ p (inv_Run l) h
    have hle : p.appended ≤ p.dequeued := by unfold Pipeline.dequeued; omega
    have hlen : (p.enqueued.take p.appended).length = p.appended := by
      rw [List.length_take]; omega
    refine ⟨torn, ?_, ht1, ?_⟩
    · rw [hfile, records_eq_numbered _ _ (by rw [hlen]; omega)]
    · intro hst
      obtain ⟨e, n, he, _, ht⟩ := ht2 hst
      refine ⟨e, n, he, ?_⟩
      have hd : p.dequeued = p.appended + 1 := by
        unfold Pipeline.dequeued; simp [hst]
      rw [ht, Nat.mod_eq_of_lt (by omega)]
  · intro s es e
    rw [numbered_append]
    simp only [numbered, List.append_nil]
    rw [Nat.add_assoc]
  · rfl
  · simp only [initializeTransactionLog, NewFileTransactionLogger, ReadEvents, Option.map_some',
      Run]
    rw [readLoop_lastSequence]
  · simp only [ReadEvents]
    generalize (scanLines contents).1 = lines
    generalize (scanLines contents).2 = tl
    generalize (0 : Nat) = last
    generalize Event.zero = e
    induction lines generalizing last e with
    | nil => simp [readLoop]
    | cons line rest ih =>
      simp only [readLoop]
      split
      · simp
      · split
        · simp
        · intro herr
          simp only [List.length_cons, Nat.add_right_cancel_iff]
          exact ih _ _ herr

/-- Instance of C2: on a fresh log, after two writes have been drained the
file holds the records numbered 1 and 2 and nothing else. -/
theorem C2_sequence_assignment_witness :
    ∃ torn, exampleDrained.l.file =
      freshLogger.file ++ numbered freshLogger.lastSequence
        (exampleDrained.enqueued.take exampleDrained.appended) ++ torn ∧ torn = [] :=
  match (C2_sequence_assignment freshLogger
    [.add (putEvent (bytes "a") (bytes "1")), .add (deleteEvent (bytes "a")),
      .send 1, .send 0, .write none, .done, .write none, .done]
    exampleDrained [] emptyStore true (by decide) (by decide)).1 with
  | ⟨torn, hfile, ht, _⟩ => ⟨torn, hfile, ht (by decide)⟩

/-- Claim C3, counterexample. In this log the third record carries sequence
number 1 after 1 and 2, and it is the first record out of sequence; but the
second record has a value that cannot be decoded, so the replay halts there,
with a decoding error and after emitting the first record only. -/
theorem C3_decode_failure_comes_first :
    (scanLines (bytes "1\t2\ta\tb\n2\t2\tk\t%zz\n1\t2\tk\tv\n")).1.map
        (fun ln => (Sscanf ln Event.zero).Sequence) = [1, 2, 1] ∧
    ReadEvents ⟨none, none, 0, bytes "1\t2\ta\tb\n2\t2\tk\t%zz\n1\t2\tk\tv\n", false, 0⟩ =
      ⟨[⟨1, EventPut, bytes "a", bytes "b"⟩], some (GoError.decodeFailure (bytes "%zz")), 1⟩ := by
  decide

/-- Claim C3, amended. Out-of-sequence halt: when the lines of the log before
some line `bad` are read and decoded without error, giving the events `evs`
and the highest sequence number `s`, and `bad` yields a sequence number that
is not greater than `s`, then `ReadEvents` emits exactly `evs`, reports
"transaction numbers out of sequence", and leaves `lastSequence` at `s`; and
`initializeTransactionLog` leaves the store in the state reached by applying
`evs`. -/
theorem C3_out_of_sequence_halt (contents : GoString) (pre post : List GoString)
    (bad : GoString) (evs : List Event) (s : Nat) (store : Store) (pick : Bool)
    (hlines : (scanLines contents).1 = pre ++ bad :: post)
    (hpre : readLoop false pre 0 Event.zero = ⟨evs, none, s⟩)
    (hbad : (Sscanf bad (evs.getLast?.getD Event.zero)).Sequence ≤ s) :
    ReadEvents ⟨none, none, 0, contents, false, 0⟩ =
      ⟨evs, some GoError.outOfSequence, s⟩ ∧
    (initializeTransactionLog (some contents) store pick).store = (replayLoop evs store).1 := by
  have h1 : ReadEvents ⟨none, none, 0, contents, false, 0⟩ =
      ⟨evs, some GoError.outOfSequence, s⟩ := by
    simp only [ReadEvents, hlines]
    rw [readLoop_append _ pre (bad :: post) 0 Event.zero evs s hpre]
    simp only [readLoop, ge_iff_le, hbad, if_true, List.append_nil]
  refine ⟨h1, ?_⟩
  simp only [initializeTransactionLog, NewFileTransactionLogger, h1]

/-- Instance of C3: record 3 followed by record 2. -/
theorem C3_out_of_sequence_halt_witness :
    ReadEvents ⟨none, none, 0, bytes "3\t2\ta\tb\n2\t2\tk\tv\n4\t1\ta\t\n", false, 0⟩ =
      ⟨[⟨3, EventPut, bytes "a", bytes "b"⟩], some GoError.outOfSequence, 3⟩ ∧
    (initializeTransactionLog (some (bytes "3\t2\ta\tb\n2\t2\tk\tv\n4\t1\ta\t\n")) emptyStore
        true).store =
      (replayLoop [⟨3, EventPut, bytes "a", bytes "b"⟩] emptyStore).1 :=
  C3_out_of_sequence_halt (bytes "3\t2\ta\tb\n2\t2\tk\tv\n4\t1\ta\t\n")
    [bytes "3\t2\ta\tb"] [bytes "4\t1\ta\t"] (bytes "2\t2\tk\tv")
    [⟨3, EventPut, bytes "a", bytes "b"⟩] 3 emptyStore true (by decide) (by decide) (by decide)

/-- Claim C4, counterexample. On a log whose second record is out of
sequence the replay fails, and in the run in which the loop of
`initializeTransactionLog` receives the error from the error channel the
function returns it; `Run` was called nevertheless: the logger has its
channels and its consumer waits for events. -/
theorem C4_run_after_failed_replay :
    (ReadEvents ⟨none, none, 0, bytes "2\t2\tk\tv\n1\t2\tk\tw\n", false, 0⟩).error =
      some GoError.outOfSequence ∧
    (initializeTransactionLogSched (some (bytes "2\t2\tk\tv\n1\t2\tk\tw\n")) emptyStore
        [.read, .recvEvent, .read, .recvError]).map (fun b => b.err) =
      some (some GoError.outOfSequence) ∧
    (initializeTransactionLogSched (some (bytes "2\t2\tk\tv\n1\t2\tk\tw\n")) emptyStore
        [.read, .recvEvent, .read, .recvError]).map
      (fun b => b.logger.map (fun p => (p.consumer, p.l.events))) =
      some (some (Consumer.receiving, some ⟨[], false⟩)) := by
  decide

/-- Claim C4, amended. In every complete run of `initializeTransactionLog`:
when the log file cannot be opened it returns an error and leaves no logger;
otherwise it calls `Run`, after a failed replay too, but only once the
goroutine of `ReadEvents` has left its loop (`lastSequence` has its final
value) and every event it emitted has been applied to the store; it returns
nil when the replay ended without error, and it returns the error of the
replay, which is not nil, whenever the last step of its loop receives the
error from the error channel. For every log there is such a run that returns
what the replay reported. -/
theorem C4_recovery (contents : Option GoString) (store : Store) (sched : List RStep)
    (b : Boot) (h : initializeTransactionLogSched contents store sched = some b) :
    (contents = none → b.err = some GoError.createFailure ∧ b.logger = none) ∧
    (∀ c, contents = some c →
      b.logger = some (Run ⟨none, none,
        (ReadEvents ⟨none, none, 0, c, false, 0⟩).lastSequence, c, false, 0⟩) ∧
      b.store = (replayLoop (ReadEvents ⟨none, none, 0, c, false, 0⟩).events store).1 ∧
      ((ReadEvents ⟨none, none, 0, c, false, 0⟩).error = none → b.err = none) ∧
      (∀ pre, sched = pre ++ [RStep.recvError] →
        b.err = (ReadEvents ⟨none, none, 0, c, false, 0⟩).error ∧ b.err ≠ none)) ∧
    (∀ c, ∃ sched2 b2, initializeTransactionLogSched (some c) store sched2 = some b2 ∧
      b2.err = (ReadEvents ⟨none, none, 0, c, false, 0⟩).error) := by
  refine ⟨?_, ?_, ?_⟩
  · intro hc
    subst hc
    simp only [initializeTransactionLogSched, NewFileTransactionLogger, Option.some.injEq] at h
    subst h
    exact ⟨rfl, rfl⟩
  · intro c hc
    subst hc
    simp only [initializeTransactionLogSched, NewFileTransactionLogger] at h
    cases hx : rexec sched (Recovery.init c store) with
    | none => simp [hx] at h
    | some st =>
      simp only [hx] at h
      split at h
      · rename_i hend
        simp only [Option.some.injEq] at h
        subst h
        have hinv := rinv_exec _ store sched _ st (rinv_init c store) hx
        obtain ⟨_, h2, h3, h4, _⟩ := rinv_ended _ store st hinv hend
        refine ⟨?_, h2, h4, ?_⟩
        · simp only [Recovery.finish, h3]
        · intro pre hpre
          subst hpre
          rw [rexec_append] at hx
          cases hy : rexec pre (Recovery.init c store) with
          | none => simp [hy] at hx
          | some st0 =>
            simp only [hy, Option.bind, rexec] at hx
            cases hz : rstep st0 RStep.recvError with
            | none => simp [hz] at hx
            | some st1 =>
              simp only [hz, Option.some.injEq] at hx
              subst hx
              have hinv0 := rinv_exec _ store pre _ st0 (rinv_init c store) hy
              obtain ⟨e1, e2, _⟩ := rinv_recvError _ store st0 st1 hinv0 hz
              exact ⟨e1, e2⟩
      · exact Option.noConfusion h
  · intro c
    obtain ⟨sched2, st1, h1, h2, h3⟩ := rexec_complete (scanLines c).1
      (Recovery.init c store) rfl rfl rfl rfl rfl
    refine ⟨sched2, st1.finish c, ?_, h3⟩
    simp only [initializeTransactionLogSched, NewFileTransactionLogger, h1, h2, if_true]

/-- Instance of C4: a log whose second record is out of sequence, in the run
in which the loop receives the error. -/
theorem C4_recovery_witness :
    ∃ b, initializeTransactionLogSched (some (bytes "2\t2\tk\tv\n1\t2\tk\tw\n")) emptyStore
        [.read, .recvEvent, .read, .recvError] = some b ∧
      b.err = (ReadEvents ⟨none, none, 0, bytes "2\t2\tk\tv\n1\t2\tk\tw\n", false, 0⟩).error ∧
      b.err ≠ none :=
  ⟨_, rfl,
    ((C4_recovery (some (bytes "2\t2\tk\tv\n1\t2\tk\tw\n")) emptyStore
      [.read, .recvEvent, .read, .recvError] _ rfl).2.1 _ rfl).2.2.2
      [.read, .recvEvent, .read] rfl⟩

/-- Claim C5. Get after Put, in `ch05_01/core.go` and `ch05_03/core.go`: for
every store, key and value, `Put(k, v)` returns nil, a following `Get(k)`
returns `(v, nil)` whatever the store held for `k`, and `Get` of any other
key returns what it returned before the `Put`. -/
theorem C5_get_after_put (store : Store) (k v : GoString) :
    ((Put k v store).2 = none ∧
      Get k (Put k v store).1 = (v, none) ∧
      ∀ k2, k2 ≠ k → Get k2 (Put k v store).1 = Get k2 store) ∧
    ((Ch05_01.Put k v store).2 = none ∧
      Ch05_01.Get k (Ch05_01.Put k v store).1 = (v, none) ∧
      ∀ k2, k2 ≠ k → Ch05_01.Get k2 (Ch05_01.Put k v store).1 = Ch05_01.Get k2 store) := by
  refine ⟨⟨rfl, ?_, ?_⟩, ⟨rfl, ?_, ?_⟩⟩
  · simp [Get, Put]
  · intro k2 h
    simp [Get, Put, h]
  · simp [Ch05_01.Get, Ch05_01.Put]
  · intro k2 h
    simp [Ch05_01.Get, Ch05_01.Put, h]

/-- Instance of C5: after `Put("a", "2")` on a store holding `"a" -> "1"`,
`Get("b")` still reports a missing key. -/
theorem C5_get_after_put_witness :
    Get (bytes "b") (Put (bytes "a") (bytes "2") (Put (bytes "a") (bytes "1") emptyStore).1).1 =
      Get (bytes "b") (Put (bytes "a") (bytes "1") emptyStore).1 :=
  (C5_get_after_put (Put (bytes "a") (bytes "1") emptyStore).1 (bytes "a") (bytes "2")).1.2.2
    (bytes "b") (by decide)

/-- Claim C6. Delete never fails and is idempotent, in `ch05_01/core.go` and
`ch05_03/core.go`: `Delete(k)` returns nil; when `k` is absent the store is
unchanged; afterwards `Get(k)` fails with `ErrorNoSuchKey`; a second
`Delete(k)` returns nil and leaves the store as the first left it. -/
theorem C6_delete_idempotent (store : Store) (k : GoString) :
    ((Delete k store).2 = none ∧
      (store k = none → (Delete k store).1 = store) ∧
      Get k (Delete k store).1 = ([], some GoError.noSuchKey) ∧
      (Delete k (Delete k store).1).2 = none ∧
      (Delete k (Delete k store).1).1 = (Delete k store).1) ∧
    ((Ch05_01.Delete k store).2 = none ∧
      (store k = none → (Ch05_01.Delete k store).1 = store) ∧
      Ch05_01.Get k (Ch05_01.Delete k store).1 = ([], some GoError.noSuchKey) ∧
      (Ch05_01.Delete k (Ch05_01.Delete k store).1).2 = none ∧
      (Ch05_01.Delete k (Ch05_01.Delete k store).1).1 = (Ch05_01.Delete k store).1) := by
  refine ⟨⟨rfl, ?_, ?_, rfl, ?_⟩, ⟨rfl, ?_, ?_, rfl, ?_⟩⟩
  · intro h
    funext k2
    by_cases hk : k2 = k
    · simp [Delete, hk, h]
    · simp [Delete, hk]
  · simp [Get, Delete]
  · funext k2
    by_cases hk : k2 = k <;> simp [Delete, hk]
  · intro h
    funext k2
    by_cases hk : k2 = k
    · simp [Ch05_01.Delete, hk, h]
    · simp [Ch05_01.Delete, hk]
  · simp [Ch05_01.Get, Ch05_01.Delete]
  · funext k2
    by_cases hk : k2 = k <;> simp [Ch05_01.Delete, hk]

/-- Instance of C6: deleting the absent key "a" from the empty store leaves
the empty store. -/
theorem C6_delete_idempotent_witness :
    (Delete (bytes "a") emptyStore).1 = emptyStore :=
  (C6_delete_idempotent emptyStore (bytes "a")).1.2.1 rfl

/-- Claim C7, evaluated at `WritePut("k", "a b")` on a fresh log. The
consumer appends the record `1 TAB 2 TAB k TAB a b NEWLINE`: the value field
is the submitted value byte for byte, whereas its percent-escaped form
(`url.QueryEscape`) is `a+b`; read back by `ReadEvents`, the record yields
the value `a`. -/
theorem C7_value_written_raw :
    (exec [.add (putEvent (bytes "k") (bytes "a b")), .send 0, .write none, .done]
        (Run freshLogger)).state?.map (fun q => q.l.file) = some (bytes "1\t2\tk\ta b\n") ∧
    QueryEscape (bytes "a b") = bytes "a+b" ∧
    (ReadEvents ⟨none, none, 0, bytes "1\t2\tk\ta b\n", false, 0⟩).events =
      [⟨1, EventPut, bytes "k", bytes "a"⟩] := by
  decide

/-- Claim C8, counterexample. After one `WritePut` has been submitted and its
record appended, and before the consumer calls `l.wg.Done()`, the counter is
1 while one event was submitted and one record appended. -/
theorem C8_counter_between_write_and_done :
    (exec [.add (putEvent (bytes "k") (bytes "v")), .send 0, .write none]
        (Run freshLogger)).state?.map
      (fun q => (q.l.wg, q.submitted, q.appended, q.consumer, q.l.file)) =
      some (1, 1, 1, Consumer.written, bytes "1\t2\tk\tv\n") := by
  decide

/-- Claim C8, amended. In every state the pipeline started by `Run` (on a
logger whose counter is zero) can reach, the events submitted are those put on
the channel plus those of callers still at the send (the counter is
incremented before the event is enqueued), and the counter equals the number
of events submitted minus the number of records appended, plus one while the
consumer stands between a successful append and its `l.wg.Done()`. `Wait`
returns only in a state in which every event submitted has been put on the
channel and has its record in the log. -/
theorem C8_pending_counter (l : FileTransactionLogger) (sched : List Step) (p : Pipeline)
    (hl : l.wg = 0) (h : exec sched (Run l) = .ok p) :
    p.submitted = p.enqueued.length + p.sending.length ∧
    p.l.wg + p.appended =
      p.submitted + (if p.consumer = Consumer.written then 1 else 0) ∧
    (∀ q, Wait p = .ok q →
      p.appended = p.submitted ∧ p.enqueued.length = p.submitted ∧ p.sending = [] ∧
      p.l.file = l.file ++ records l.lastSequence p.enqueued) := by
  obtain ⟨_, _, _, _, hwg, hsub, _⟩ := inv_exec l sched _ p (inv_Run l) h
  rw [hl, Nat.zero_add] at hwg
  refine ⟨hsub, hwg, ?_⟩
  intro q hq
  have h0 : p.l.wg = 0 := by
    simp only [Wait] at hq
    split at hq
    · assumption
    · simp at hq
  exact drained_file l sched p hl h h0

/-- Instance of C8: on a fresh log, after two writes have been drained `Wait`
returns, and the log holds both records. -/
theorem C8_pending_counter_witness :
    exampleDrained.l.file = [] ++ records 0 exampleDrained.enqueued :=
  ((C8_pending_counter freshLogger
    [.add (putEvent (bytes "a") (bytes "1")), .add (deleteEvent (bytes "a")),
      .send 1, .send 0, .write none, .done, .write none, .done]
    exampleDrained rfl (by decide)).2.2 exampleDrained (by decide)).2.2.2

/-- Claim C9, counterexample. On a fresh logger, after `Run` and `Close`, a
call of `WritePut` panics (send on a closed channel), and so does a call of
`WriteDelete`. -/
theorem C9_write_after_close_panics :
    ((Close (Run freshLogger)).bind (WritePut (bytes "k") (bytes "v")) id).isPanic = true ∧
    ((Close (Run freshLogger)).bind (WriteDelete (bytes "k")) id).isPanic = true := by
  decide

/-- Claim C9, amended. In every state of a pipeline started by `Run` in which
`Close` has closed the event channel, a call of `WritePut` or `WriteDelete`
increments the counter and then panics on its send; it does not block, and it
leaves the log file as it was. -/
theorem C9_write_after_close (l : FileTransactionLogger) (sched : List Step) (p : Pipeline)
    (key value : GoString) (h : exec sched (Run l) = .ok p) (hc : 2 ≤ p.closer) :
    (∃ q, WritePut key value p = .panic q ∧ q.l.file = p.l.file ∧ q.l.wg = p.l.wg + 1 ∧
      q.enqueued = p.enqueued) ∧
    (∃ q, WriteDelete key p = .panic q ∧ q.l.file = p.l.file ∧ q.l.wg = p.l.wg + 1 ∧
      q.enqueued = p.enqueued) := by
  obtain ⟨ch, hch, hcl⟩ := closedInv_exec sched _ p (closedInv_Run l) h
  have hcl2 := hcl hc
  constructor
  · refine ⟨{ p with
      l := { p.l with wg := p.l.wg + 1 }
      sending := p.sending ++ [putEvent key value]
      submitted := p.submitted + 1 }, ?_, rfl, rfl, rfl⟩
    simp only [WritePut, stepAdd, Outcome.bind, stepSend, List.length_append,
      List.length_singleton, Nat.add_sub_cancel, hch, hcl2, if_true]
    simp only [List.getElem?_append_right (Nat.le_refl _), Nat.sub_self,
      List.getElem?_cons_zero, id]
  · refine ⟨{ p with
      l := { p.l with wg := p.l.wg + 1 }
      sending := p.sending ++ [deleteEvent key]
      submitted := p.submitted + 1 }, ?_, rfl, rfl, rfl⟩
    simp only [WriteDelete, stepAdd, Outcome.bind, stepSend, List.length_append,
      List.length_singleton, Nat.add_sub_cancel, hch, hcl2, if_true]
    simp only [List.getElem?_append_right (Nat.le_refl _), Nat.sub_self,
      List.getElem?_cons_zero, id]

/-- Instance of C9: the state after `Run` and the three statements of `Close`
on a fresh logger. -/
theorem C9_write_after_close_witness :
    ∃ q, WritePut (bytes "k") (bytes "v") exampleClosed = .panic q ∧
      q.l.file = exampleClosed.l.file ∧ q.l.wg = exampleClosed.l.wg + 1 ∧
      q.enqueued = exampleClosed.enqueued :=
  (C9_write_after_close freshLogger [.closeWait, .closeEvents, .closeFile]
    exampleClosed (bytes "k") (bytes "v") (by decide) (by decide)).1

/-- Claim C10, counterexample. On a fresh log the first write succeeds and
the second fails with error 5 after 3 bytes of its record have reached the
file: the consumer puts the error on the channel and stops, and the log then
holds the first record followed by these 3 bytes, not the first record alone. -/
theorem C10_partial_record_left :
    exec [.add (putEvent (bytes "a") (bytes "1")), .send 0, .write none, .done,
        .add (putEvent (bytes "b") (bytes "2")), .send 0, .recv, .incr, .fprintf (some (5, 3))]
        (Run freshLogger) = .ok exampleFailed ∧
    exampleFailed.consumer = Consumer.stopped ∧
    Err exampleFailed.l = some ⟨[GoError.writeFailure 5], false⟩ ∧
    exampleFailed.l.file = bytes "1\t2\ta\t1\n2\t2" ∧
    records 0 [putEvent (bytes "a") (bytes "1")] = bytes "1\t2\ta\t1\n" := by
  decide

/-- Claim C10, amended. Write failure is fatal to the pipeline: when, in a
state the pipeline started by `Run` can reach, the write for the next event
`e` fails with the error `code` after `n` bytes (because the file is closed,
or because the write itself fails), the consumer has taken `e` from the
channel and incremented the sequence number, it puts that error on the
channel `Err` returns and stops; the log then holds the file `Run` found, the
records of the events dequeued before `e`, and the bytes of the record of `e`
the write put out, fewer than the whole record; and no later step of the
pipeline changes the log or the error channel, appends a record or restarts
the consumer. -/
theorem C10_write_failure_fatal (l : FileTransactionLogger) (sched rest : List Step)
    (p q r : Pipeline) (st : Step) (io : Option (Nat × Nat)) (code n : Nat)
    (h : exec sched (Run l) = .ok p)
    (hst : st = Step.write io ∨ st = Step.fprintf io)
    (hw : step p st = .ok q)
    (hfail : (if p.l.fileClosed then some (0, 0) else io) = some (code, n))
    (hr : exec rest q = .ok r) :
    ∃ e, p.enqueued[p.appended]? = some e ∧
      q.consumer = Consumer.stopped ∧
      (∃ ech, Err q.l = some ech ∧ ech.buf = [GoError.writeFailure code]) ∧
      q.enqueued = p.enqueued ∧ q.appended = p.appended ∧
      q.l.lastSequence = (l.lastSequence + (p.appended + 1)) % 2 ^ 64 ∧
      q.l.file = l.file ++ records l.lastSequence (p.enqueued.take p.appended) ++
        (fmtRecord q.l.lastSequence e.EventType e.Key e.Value).take
          (min n ((fmtRecord q.l.lastSequence e.EventType e.Key e.Value).length - 1)) ∧
      (∃ ch, q.l.events = some ch ∧ ch.buf = p.enqueued.drop (p.appended + 1)) ∧
      r.consumer = Consumer.stopped ∧ r.l.file = q.l.file ∧ r.appended = q.appended ∧
      Err r.l = Err q.l := by
  have hp := inv_exec l sched _ p (inv_Run l) h
  have key : ∃ p2, Inv l p2 ∧ stepFprintf io p2 = .ok q ∧ p2.l.fileClosed = p.l.fileClosed ∧
      p2.appended = p.appended ∧ p2.enqueued = p.enqueued := by
    rcases hst with hst | hst
    · subst hst
      obtain ⟨p1, p2, h1, h2, h3⟩ := stepWrite_ok io p q hw
      obtain ⟨a1, a2, a3⟩ := stepRecv_frame p p1 h1
      obtain ⟨b1, b2, b3⟩ := stepIncr_frame p1 p2 h2
      exact ⟨p2, inv_incr l p1 p2 (inv_recv l p p1 hp h1) h2, h3, by rw [b1, a1],
        by rw [b2, a2], by rw [b3, a3]⟩
    · subst hst
      exact ⟨p, hp, hw, rfl, rfl, rfl⟩
  obtain ⟨p2, hp2, hs, hfc, hap, hen⟩ := key
  rw [← hfc] at hfail
  obtain ⟨e, he, hc, herr, h1, h2, h3, h4, h5⟩ := failed_write l p2 q io code n hp2 hs hfail
  obtain ⟨r1, r2, r3, _, r5⟩ := stopped_exec rest q r hc hr
  simp only [hap, hen] at he h1 h2 h3 h4 h5
  exact ⟨e, he, hc, herr, h1, h2, h3, h4, h5, r1, r2, r3, by simp only [Err, r5]⟩

/-- Instance of C10: on a fresh log, the first write succeeds and the second
fails after 3 bytes; the event submitted afterwards is never written. -/
theorem C10_write_failure_fatal_witness :
    ∃ e, exampleBeforeFailure.enqueued[exampleBeforeFailure.appended]? = some e ∧
      exampleFailed.l.file = freshLogger.file ++
        records freshLogger.lastSequence
          (exampleBeforeFailure.enqueued.take exampleBeforeFailure.appended) ++
        (fmtRecord exampleFailed.l.lastSequence e.EventType e.Key e.Value).take
          (min 3 ((fmtRecord exampleFailed.l.lastSequence e.EventType e.Key e.Value).length - 1)) ∧
      exampleAfterFailure.l.file = exampleFailed.l.file :=
  match C10_write_failure_fatal freshLogger
    [.add (putEvent (bytes "a") (bytes "1")), .send 0, .write none, .done,
      .add (putEvent (bytes "b") (bytes "2")), .send 0]
    [.add (putEvent (bytes "c") (bytes "3")), .send 0]
    exampleBeforeFailure exampleFailed exampleAfterFailure
    (.write (some (5, 3))) (some (5, 3)) 5 3 (by decide) (Or.inl rfl) (by decide) (by decide)
    (by decide) with
  | ⟨e, he, _, _, _, _, _, hf, _, _, hr, _⟩ => ⟨e, he, hf, hr⟩

/-- Claim C11. Concrete scenario: whenever `WritePut("a","1")`,
`WritePut("b","2")`, `WriteDelete("a")` have been put on the channel of a fresh
log in this order and the pipeline has drained, the log file is the three
lines `1 TAB 2 TAB a TAB 1`, `2 TAB 2 TAB b TAB 2`, `3 TAB 1 TAB a TAB`; its
replay emits three events with sequence numbers 1, 2, 3 and types Put (2),
Put (2), Delete (1) and no error, `initializeTransactionLog` returns nil, and
the store it leaves from an empty store has the single entry `"b" -> "2"`. -/
theorem C11_scenario (sched : List Step) (p : Pipeline) (pick : Bool)
    (h : exec sched (Run freshLogger) = .ok p)
    (henq : p.enqueued = [putEvent (bytes "a") (bytes "1"), putEvent (bytes "b") (bytes "2"),
      deleteEvent (bytes "a")])
    (hwait : p.l.wg = 0) :
    p.l.file = bytes "1\t2\ta\t1\n2\t2\tb\t2\n3\t1\ta\t\n" ∧
    scanLines p.l.file = ([bytes "1\t2\ta\t1", bytes "2\t2\tb\t2", bytes "3\t1\ta\t"], false) ∧
    (ReadEvents ⟨none, none, 0, p.l.file, false, 0⟩).events.map
        (fun e => (e.Sequence, e.EventType)) = [(1, EventPut), (2, EventPut), (3, EventDelete)] ∧
    (ReadEvents ⟨none, none, 0, p.l.file, false, 0⟩).error = none ∧
    (initializeTransactionLog (some p.l.file) emptyStore pick).err = none ∧
    (∀ k, (initializeTransactionLog (some p.l.file) emptyStore pick).store k =
      if k = bytes "b" then some (bytes "2") else none) ∧
    Get (bytes "b") (initializeTransactionLog (some p.l.file) emptyStore pick).store =
      (bytes "2", none) ∧
    Get (bytes "a") (initializeTransactionLog (some p.l.file) emptyStore pick).store =
      ([], some GoError.noSuchKey) := by
  obtain ⟨_, _, _, hfile⟩ := drained_file freshLogger sched p rfl h hwait
  have hf : p.l.file = scenarioLog := by
    rw [hfile, henq]
    decide
  have hstore : ∀ k, (initializeTransactionLog (some scenarioLog) emptyStore pick).store k =
      if k = bytes "b" then some (bytes "2") else none := by
    intro k
    show (replayLoop (ReadEvents ⟨none, none, 0, scenarioLog, false, 0⟩).events emptyStore).1 k = _
    rw [scenario_replay]
    simp only [replayLoop, applyEvent, EventPut, EventDelete, Put, Delete, emptyStore]
    by_cases h1 : k = bytes "a"
    · subst h1
      decide
    · by_cases h2 : k = bytes "b"
      · subst h2
        decide
      · simp [h1, h2]
  rw [hf]
  refine ⟨rfl, by decide, ?_, ?_, ?_, hstore, ?_, ?_⟩
  · rw [scenario_replay]; decide
  · rw [scenario_replay]
  · show (match (replayLoop (ReadEvents ⟨none, none, 0, scenarioLog, false, 0⟩).events
        emptyStore).2 with
      | some e => some e
      | none => if pick then (ReadEvents ⟨none, none, 0, scenarioLog, false, 0⟩).error
        else none) = none
    rw [replayLoop_no_error, scenario_replay]
    simp
  · simp only [Get, hstore]
    decide
  · simp only [Get, hstore]
    decide

/-- Instance of C11: each of the three writes is drained before the next. -/
theorem C11_scenario_witness :
    (after (drainSchedule exampleOps) (Run freshLogger)).l.file =
      bytes "1\t2\ta\t1\n2\t2\tb\t2\n3\t1\ta\t\n" :=
  (C11_scenario (drainSchedule exampleOps) (after (drainSchedule exampleOps) (Run freshLogger))
    true (by decide) (by decide) (by decide)).1

/-- Claim C12, code bug. `WritePut("a","v")` and `WritePut("x","")` on a
fresh log write the two lines `1 TAB 2 TAB a TAB v` and `2 TAB 2 TAB x TAB`.
The value field of the second record is empty, and it percent-decodes to the
empty string; but `Sscanf` reads nothing into `e.Value` for it, its result is
not looked at, and `e` still holds the value `v` of the record before: the
replay emits the second event with the value `v` and leaves
`Get("x") == ("v", nil)`, not `("", nil)`. -/
theorem C12_empty_value_field :
    (after (drainSchedule [.put (bytes "a") (bytes "v"), .put (bytes "x") []])
      (Run freshLogger)).l.file = bytes "1\t2\ta\tv\n2\t2\tx\t\n" ∧
    (scanLines (bytes "1\t2\ta\tv\n2\t2\tx\t\n")).1 = [bytes "1\t2\ta\tv", bytes "2\t2\tx\t"] ∧
    QueryUnescape [] = .ok [] ∧
    (ReadEvents ⟨none, none, 0, bytes "1\t2\ta\tv\n2\t2\tx\t\n", false, 0⟩) =
      ⟨[⟨1, EventPut, bytes "a", bytes "v"⟩, ⟨2, EventPut, bytes "x", bytes "v"⟩], none, 2⟩ ∧
    Get (bytes "x")
        (initializeTransactionLog (some (bytes "1\t2\ta\tv\n2\t2\tx\t\n")) emptyStore true).store =
      (bytes "v", none) ∧
    Get (bytes "x")
        (initializeTransactionLog (some (bytes "1\t2\ta\tv\n2\t2\tx\t\n")) emptyStore false).store =
      (bytes "v", none) := by
  decide

end Ch05_03

namespace Ch04

theorem retryLoop_spec {σ : Type} (effector : Effector σ) (retries : Int) :
    ∀ (m : Nat) (fuel : Nat) (r : Int) (st : σ), 0 ≤ r → r + m = retries → m + 1 ≤ fuel →
    ∃ n : Nat, n ≤ m ∧
      (∀ k < n, (resultOf effector k st).2 ≠ none) ∧
      ((resultOf effector n st).2 = none ∨ n = m) ∧
      retryLoop effector retries (fun _ => false) fuel r st =
        some (resultOf effector n st, stateAfter effector (n + 1) st) := by
  intro m
  induction m with
  | zero =>
    intro fuel r st _ hrm hf
    obtain ⟨f, rfl⟩ : ∃ f, fuel = f + 1 := ⟨fuel - 1, by omega⟩
    refine ⟨0, le_refl _, by simp, Or.inr rfl, ?_⟩
    have hge : r ≥ retries := by omega
    simp [retryLoop, hge, resultOf, stateAfter]
  | succ m ih =>
    intro fuel r st hr hrm hf
    obtain ⟨f, rfl⟩ : ∃ f, fuel = f + 1 := ⟨fuel - 1, by omega⟩
    by_cases herr : (effector st).1.2 = none
    · refine ⟨0, by omega, by simp, Or.inl (by simpa [resultOf, stateAfter] using herr), ?_⟩
      simp only [retryLoop, herr, Option.isNone_none, Bool.true_or, if_true, resultOf,
        stateAfter]
      rw [← herr]
    · obtain ⟨n, hn1, hn2, hn3, hn4⟩ := ih f (r + 1) (effector st).2 (by omega) (by omega) (by omega)
      refine ⟨n + 1, by omega, ?_, ?_, ?_⟩
      · intro k hk
        cases k with
        | zero => simpa [resultOf, stateAfter] using herr
        | succ k => simpa [resultOf, stateAfter] using hn2 k (by omega)
      · rcases hn3 with h | h
        · left; simpa [resultOf, stateAfter] using h
        · right; omega
      · have hlt : ¬ r ≥ retries := by omega
        have hsome : (effector st).1.2.isNone = false := by
          cases h : (effector st).1.2 with
          | none => exact absurd h herr
          | some _ => rfl
        simp only [retryLoop, hsome, hlt, decide_False, Bool.or_self, Bool.false_eq_true,
          if_false]
        rw [hn4]
        simp [resultOf, stateAfter]

/-- Claim C13. Retry bound: with a context that is never cancelled, for
every effector, every `retries >= 0` and every delay, the function returned
by `Retry(effector, retries, delay)` returns, after `n + 1` calls of the
effector for some `n <= retries`: the first `n` calls return an error, call
`n + 1` returns a nil error or is call number `retries + 1`, and the result is
the response and error of call `n + 1`. The effector of the test, which fails
3 times and then succeeds, is called exactly 4 times with `retries = 5`, and
the result is `("success", nil)`. -/
theorem C13_retry_bound {σ : Type} (effector : Effector σ) (retries delay : Int) (st : σ)
    (fuel : Nat) (hr : 0 ≤ retries) (hf : retries.toNat + 1 ≤ fuel) :
    (∃ n : Nat, (n : Int) ≤ retries ∧
      (∀ k < n, (resultOf effector k st).2 ≠ none) ∧
      ((resultOf effector n st).2 = none ∨ (n : Int) = retries) ∧
      Retry effector retries delay (fun _ => false) fuel st =
        some (resultOf effector n st, stateAfter effector (n + 1) st)) ∧
    Retry EmulateTransientError 5 delay (fun _ => false) 6 0 =
      some ((bytes "success", none), 4) := by
  constructor
  · obtain ⟨n, h1, h2, h3, h4⟩ := retryLoop_spec effector retries retries.toNat fuel 0 st
      (le_refl _) (by omega) hf
    refine ⟨n, by omega, h2, ?_, h4⟩
    rcases h3 with h | h
    · exact Or.inl h
    · exact Or.inr (by omega)
  · show retryLoop EmulateTransientError 5 (fun _ => false) 6 0 0 = _
    decide

/-- Instance of C13: the test `TestRetry`, `Retry(EmulateTransientError, 5,
2*time.Second)` with `count` at 0. -/
theorem C13_retry_bound_witness :
    ∃ n : Nat, (n : Int) ≤ 5 ∧
      (∀ k < n, (resultOf EmulateTransientError k 0).2 ≠ none) ∧
      ((resultOf EmulateTransientError n 0).2 = none ∨ (n : Int) = 5) ∧
      Retry EmulateTransientError 5 2000000000 (fun _ => false) 6 0 =
        some (resultOf EmulateTransientError n 0, stateAfter EmulateTransientError (n + 1) 0) :=
  (C13_retry_bound EmulateTransientError 5 2000000000 0 6 (by decide) (by decide)).1

end Ch04
